import Mathlib

/-!
Verification of the segmented append-only byte log
(`embedded/appendable/multiapp/multi_app.go`).

The multiapp coordinator from the source is embedded shallowly.  Its two
collaborators — the single-file Segment Handle (`singleapp.AppendableFile`)
and the bounded LRU handle cache (`cache.LRUCache`) — are not part of the
sources and are modelled from the spec (sections 2.1, 4.1 and 6); each such
definition carries a doc comment saying so.

Modelling conventions:
* bytes are natural numbers; offsets and sizes are `Nat` (the Go code uses
  non-negative `int64` values for every offset that the claims touch);
* the on-disk directory is a shared association list from file name to file
  (header metadata, payload bytes, compression configuration): every open
  handle addresses its file by name, so writes through one handle are seen
  by every other handle on the same file, matching the spec's reading of
  the Segment Handle contract ("the coordinator assumes reads return the
  bytes written", spec section 9);
* fallible primitives (opening, closing and writing through a Segment
  Handle) consult a fault oracle `ff : Nat → Bool` indexed by a call clock
  stored in the world, which models I/O errors; `noFaults` is the oracle
  that never fails;
* a ghost counter `openCount` counts handles opened and not yet closed,
  used to verify the file-descriptor bound.
-/

namespace MultiApp

abbrev Byte := Nat

/-- Error kinds of the multiapp layer and of the modelled collaborators.
The `io*` constructors record which primitive an injected I/O fault hit;
`fuelOut` marks runs of the Go loops that would not terminate. -/
inductive MErr where
  | alreadyClosed
  | readOnlyErr
  | illegalArguments
  | parseError
  | statError
  | ioOpen
  | ioClose
  | ioWrite
  | ioRead
  | eof
  | fuelOut
deriving DecidableEq, Repr

/-- Values stored in a segment header: the metadata facility of the Segment
Handle stores typed entries (`PutInt` / `Put` in the source). -/
inductive MetaVal where
  | int (v : Nat)
  | bytes (b : List Byte)
deriving DecidableEq, Repr

abbrev Meta := List (String × MetaVal)

/-- Modelled from the spec: the Segment Handle's metadata facility, an
ordered map with typed accessors (spec section 6).  `metaGetInt` returns
`none` where the Go `GetInt` returns `(0, err)`. -/
def metaGetInt : Meta → String → Option Nat
  | [], _ => none
  | (k, v) :: rest, key =>
    if k = key then
      match v with
      | .int n => some n
      | _ => none
    else metaGetInt rest key

/-- Modelled from the spec: raw-bytes accessor of the metadata facility. -/
def metaGetBytes : Meta → String → Option (List Byte)
  | [], _ => none
  | (k, v) :: rest, key =>
    if k = key then
      match v with
      | .bytes b => some b
      | _ => none
    else metaGetBytes rest key

/-- The constant `metaFileSize = "FILE_SIZE"` from the source. -/
def metaFileSize : String := "FILE_SIZE"

/-- The constant `metaWrappedMeta = "WRAPPED_METADATA"` from the source. -/
def metaWrappedMeta : String := "WRAPPED_METADATA"

/-- The constant `appendable.NoCompression`; its concrete value is opaque
to the multiapp layer, only equality with it is tested. -/
def NoCompression : Nat := 0

/-- One file of the store's directory: its header metadata, payload bytes
and compression configuration.  Compressed frames are opaque to the
multiapp layer (spec section 9); payloads are kept as raw bytes and the
content-level claims are stated for stores without compression. -/
structure SegFile where
  meta : Meta
  content : List Byte
  cf : Nat
  cl : Nat
deriving DecidableEq, Repr

/-- Modelled from the spec: an open Segment Handle
(`singleapp.AppendableFile`, not part of the sources).  It addresses its
on-disk file by name and keeps its own write offset; `ro` records whether
it was opened read-only. -/
structure Handle where
  name : String
  off : Nat
  ro : Bool
  meta : Meta
  cf : Nat
  cl : Nat
deriving DecidableEq, Repr

/-- The world outside the coordinator: the directory contents, the ghost
count of handles opened and not yet closed, and the fault clock. -/
structure World where
  fs : List (String × SegFile)
  openCount : Nat
  clock : Nat
deriving DecidableEq, Repr

def World.empty : World := { fs := [], openCount := 0, clock := 0 }

/-- Look a file up by name. -/
def fsFind : List (String × SegFile) → String → Option SegFile
  | [], _ => none
  | (n, f) :: rest, name => if n = name then some f else fsFind rest name

/-- Replace the named file, or add it when absent. -/
def fsSet : List (String × SegFile) → String → SegFile → List (String × SegFile)
  | [], name, f => [(name, f)]
  | (n, g) :: rest, name, f =>
    if n = name then (n, f) :: rest else (n, g) :: fsSet rest name f

/-- Write `bs` into `content` starting at position `off`, extending the
list (zero-filled, as a sparse file) when the write starts past the end. -/
def listWriteAt (content : List Byte) (off : Nat) (bs : List Byte) : List Byte :=
  content.take off ++ List.replicate (off - content.length) 0 ++ bs
    ++ content.drop (off + bs.length)

/-- The fault oracle that never injects an error. -/
def noFaults : Nat → Bool := fun _ => false

/-- Consult the fault oracle and advance the fault clock. -/
def tick (ff : Nat → Bool) (w : World) : Bool × World :=
  (ff w.clock, { w with clock := w.clock + 1 })

/-- Options for opening one Segment Handle (the subset of
`singleapp.Options` the multiapp layer sets). -/
structure SAOpts where
  ro : Bool
  cf : Nat
  cl : Nat
  meta : Meta
deriving DecidableEq, Repr

/-- Modelled from the spec: `singleapp.Open` (not part of the sources).
An existing file is opened at its end and its stored header is
authoritative (spec section 3, "Header rediscovery on reopen"); a missing
file is created with the caller's header unless the handle is read-only. -/
def singleappOpen (ff : Nat → Bool) (w : World) (name : String) (o : SAOpts) :
    Option Handle × World × Option MErr :=
  let t := tick ff w
  if t.1 then (none, t.2, some .ioOpen)
  else
    match fsFind t.2.fs name with
    | some file =>
        (some { name := name, off := file.content.length, ro := o.ro,
                meta := file.meta, cf := file.cf, cl := file.cl },
         { t.2 with openCount := t.2.openCount + 1 }, none)
    | none =>
        if o.ro then (none, t.2, some .ioOpen)
        else
          (some { name := name, off := 0, ro := o.ro, meta := o.meta,
                  cf := o.cf, cl := o.cl },
           { t.2 with
              fs := fsSet t.2.fs name
                { meta := o.meta, content := [], cf := o.cf, cl := o.cl },
              openCount := t.2.openCount + 1 }, none)

/-- Modelled from the spec: closing a Segment Handle releases its file
descriptor (ghost-counted); an injected fault models a failing close. -/
def handleClose (ff : Nat → Bool) (w : World) : World × Option MErr :=
  let t := tick ff w
  if t.1 then (t.2, some .ioClose)
  else ({ t.2 with openCount := t.2.openCount - 1 }, none)

/-- Modelled from the spec: `AppendableFile.Append` writes at the handle's
current offset directly into the shared file and returns the in-file
offset the write started at. -/
def handleWrite (ff : Nat → Bool) (w : World) (h : Handle) (bs : List Byte) :
    Nat × Handle × World × Option MErr :=
  let t := tick ff w
  if t.1 then (0, h, t.2, some .ioWrite)
  else if h.ro then (0, h, t.2, some .readOnlyErr)
  else
    match fsFind t.2.fs h.name with
    | none => (0, h, t.2, some .ioWrite)
    | some file =>
        (h.off, { h with off := h.off + bs.length },
         { t.2 with
            fs := fsSet t.2.fs h.name
              { file with content := listWriteAt file.content h.off bs } }, none)

/-- Modelled from the spec: `AppendableFile.ReadAt` copies at most the
remaining bytes of the file from the given in-file offset and reports
end-of-file when fewer bytes than requested were available. -/
def handleReadAt (w : World) (h : Handle) (len inOff : Nat) :
    List Byte × Option MErr :=
  match fsFind w.fs h.name with
  | none => ([], some .ioRead)
  | some file =>
      let avail := file.content.length - inOff
      let rn := min len avail
      ((file.content.drop inOff).take rn, if rn < len then some .eof else none)

/-- Modelled from the spec: `AppendableFile.SetOffset` moves the write
cursor (whether it also truncates is left open by the spec, section 8
scenario S6; the claims do not depend on the choice). -/
def handleSetOffset (h : Handle) (x : Nat) : Handle := { h with off := x }

/-- Modelled from the spec: `AppendableFile.Size`, the byte length of the
handle's file. -/
def handleSize (w : World) (h : Handle) : Nat :=
  ((fsFind w.fs h.name).map (fun f => f.content.length)).getD 0

/-! ### The bounded LRU handle cache, modelled from the spec (section 4.1)

The cache is a list of key/handle pairs in recency order, most recently
used first.  `get` moves a hit to the front; `put` inserts at the front
and, only when the capacity would be exceeded, evicts the least recently
used entry and returns it.  Updating an existing key replaces the value
without reporting an eviction, since capacity is not exceeded. -/

def cacheLookup : List (Nat × Handle) → Nat → Option Handle
  | [], _ => none
  | (k, v) :: rest, key => if k = key then some v else cacheLookup rest key

def cacheErase : List (Nat × Handle) → Nat → List (Nat × Handle)
  | [], _ => []
  | (k, v) :: rest, key =>
    if k = key then cacheErase rest key else (k, v) :: cacheErase rest key

/-- Modelled from the spec: `LRUCache.Get`, returning the handle and the
cache with that entry marked most recently used. -/
def cacheGet (c : List (Nat × Handle)) (k : Nat) :
    Option (Handle × List (Nat × Handle)) :=
  match cacheLookup c k with
  | none => none
  | some h => some (h, (k, h) :: cacheErase c k)

/-- Modelled from the spec: `LRUCache.Put`, returning the new cache and
the evicted entry, if any. -/
def cachePut (cap : Nat) (c : List (Nat × Handle)) (k : Nat) (v : Handle) :
    List (Nat × Handle) × Option (Nat × Handle) :=
  if (cacheLookup c k).isSome then ((k, v) :: cacheErase c k, none)
  else if c.length < cap then ((k, v) :: c, none)
  else (((k, v) :: c).dropLast, ((k, v) :: c).getLast?)

/-! ### File names: `appendableName` and stem parsing -/

def digitChar (n : Nat) : Char := Char.ofNat (48 + n)

/-- Decimal digits, most significant first; structural on `fuel`, which
suffices whenever `n < fuel`. -/
def natDigitsAux (fuel n : Nat) : List Char :=
  match fuel with
  | 0 => []
  | fuel + 1 =>
      if n < 10 then [digitChar n]
      else natDigitsAux fuel (n / 10) ++ [digitChar (n % 10)]

/-- Decimal digits of a natural number, most significant first. -/
def natDigits (n : Nat) : List Char := natDigitsAux (n + 1) n

/-- The source's `appendableName`: `fmt.Sprintf("%08d.%s", appID, ext)`. -/
def appendableName (appID : Nat) (ext : String) : String :=
  let ds := natDigits appID
  ⟨List.replicate (8 - ds.length) '0' ++ ds ++ '.' :: ext.data⟩

/-- The source's `appendableID`: `off / int64(fileSize)`. -/
def appendableID (off : Nat) (fileSize : Nat) : Nat := off / fileSize

/-- The stem of a file name: everything before the last dot, the whole
name when there is none (`strings.TrimSuffix(name, filepath.Ext(name))`). -/
def stemChars (cs : List Char) : List Char :=
  match (cs.reverse).dropWhile (fun c => c != '.') with
  | [] => cs
  | _ :: rest => rest.reverse

def isDigitChar (c : Char) : Bool := 48 ≤ c.toNat && c.toNat ≤ 57

def digitsVal (cs : List Char) : Nat :=
  cs.foldl (fun a c => a * 10 + (c.toNat - 48)) 0

/-- Modelled from the spec: `strconv.ParseInt(stem, 10, 64)` restricted to
the names this store can generate — segment ids are non-negative, so signs
are not modelled and a parse succeeds exactly on a non-empty all-digit
stem. -/
def parseStem (s : String) : Option Nat :=
  let cs := stemChars s.data
  if cs ≠ [] && cs.all isDigitChar then some (digitsVal cs) else none

/-- An extension is well formed when it contains no dot, so that the dot
written by `appendableName` is the last one of the file name. -/
def extNoDot (ext : String) : Bool := !ext.data.contains '.'

/-! ### The multiapp coordinator -/

/-- The resident state of `MultiFileAppendable`, with the world attached.
The Go `path` and `fileMode` fields are not modelled: the world holds the
single directory and POSIX permissions are outside the embedding. -/
structure MultiFileAppendable where
  appendables : List (Nat × Handle)
  maxCap : Nat
  currAppID : Nat
  currApp : Handle
  readOnly : Bool
  synced : Bool
  fileSize : Nat
  fileExt : String
  closed : Bool
  world : World
deriving DecidableEq, Repr

instance : Inhabited MultiFileAppendable :=
  ⟨{ appendables := [], maxCap := 0, currAppID := 0,
     currApp := { name := "", off := 0, ro := false, meta := [], cf := 0, cl := 0 },
     readOnly := false, synced := false, fileSize := 0, fileExt := "",
     closed := true, world := World.empty }⟩

/-- The multiapp `Options`. -/
structure Options where
  readOnly : Bool
  synced : Bool
  fileSize : Nat
  fileExt : String
  maxOpenedFiles : Nat
  compressionFormat : Nat
  compressionLevel : Nat
  metadata : List Byte
deriving DecidableEq, Repr

/-- Modelled from the spec: `validOptions` lives in `multiapp/options.go`,
which is not part of the sources; spec section 4.2 requires a positive
segment size and a positive cache capacity. -/
def validOptions (opts : Options) : Bool :=
  decide (0 < opts.fileSize) && decide (0 < opts.maxOpenedFiles)

/-- Byte-wise lexicographic comparison of names, as Go compares strings. -/
def charsLt : List Char → List Char → Bool
  | [], [] => false
  | [], _ :: _ => true
  | _ :: _, [] => false
  | a :: as, b :: bs =>
      if a.toNat < b.toNat then true
      else if b.toNat < a.toNat then false
      else charsLt as bs

def nameLt (a b : String) : Bool := charsLt a.data b.data

/-- Insert a name into a lexicographically sorted (ascending) list. -/
def insortName (a : String) : List String → List String
  | [] => [a]
  | b :: l => if nameLt a b then a :: b :: l else b :: insortName a l

/-- The listing order of `ioutil.ReadDir`: the directory entries sorted
by name, ascending. -/
def sortNames : List String → List String
  | [] => []
  | a :: l => insortName a (sortNames l)

/-- The source's `Open`.  `dirExists` tells whether the directory already
exists on disk (the `os.Stat` branch); when it does, `w.fs` is its
contents, listed in lexicographic order as `ioutil.ReadDir` does. -/
def Open (ff : Nat → Bool) (dirExists : Bool) (w : World) (opts : Options) :
    Except MErr MultiFileAppendable :=
  if !(validOptions opts) then .error .illegalArguments
  else if !dirExists && opts.readOnly then .error .statError
  else
    let fis := if dirExists then sortNames (w.fs.map Prod.fst) else []
    let m : Meta := [(metaFileSize, .int opts.fileSize), (metaWrappedMeta, .bytes opts.metadata)]
    let sopts : SAOpts :=
      { ro := opts.readOnly, cf := opts.compressionFormat,
        cl := opts.compressionLevel, meta := m }
    let idName : Except MErr (Nat × String) :=
      match fis.getLast? with
      | some filename =>
          match parseStem filename with
          | some id => .ok (id, filename)
          | none => .error .parseError
      | none => .ok (0, appendableName (appendableID 0 opts.fileSize) opts.fileExt)
    match idName with
    | .error e => .error e
    | .ok (currAppID, filename) =>
        match singleappOpen ff w filename sopts with
        | (none, _, _) => .error .ioOpen
        | (some currApp, w', _) =>
            let fileSize := (metaGetInt currApp.meta metaFileSize).getD 0
            .ok { appendables := [], maxCap := opts.maxOpenedFiles,
                  currAppID := currAppID, currApp := currApp,
                  readOnly := opts.readOnly, synced := opts.synced,
                  fileSize := fileSize, fileExt := opts.fileExt,
                  closed := false, world := w' }

/-- The source's `openAppendable`: open a segment file with the store's
mode and the tail's compression configuration and metadata. -/
def openAppendable (ff : Nat → Bool) (s : MultiFileAppendable) (appname : String) :
    Option Handle × World × Option MErr :=
  singleappOpen ff s.world appname
    { ro := s.readOnly, cf := s.currApp.cf, cl := s.currApp.cl, meta := s.currApp.meta }

/-- Insert a handle into the cache and synchronously close the evicted
handle, if any — the `Put`/eject/`Close` step shared by `Append`,
`SetOffset` and `appendableFor` in the source. -/
def putAndCloseEv (ff : Nat → Bool) (s : MultiFileAppendable) (k : Nat) (h : Handle) :
    MultiFileAppendable × Option MErr :=
  let pr := cachePut s.maxCap s.appendables k h
  let s' := { s with appendables := pr.1 }
  match pr.2 with
  | none => (s', none)
  | some _ =>
      let cr := handleClose ff s'.world
      ({ s' with world := cr.1 }, cr.2)

/-- The rollover step of the source's `Append` loop (lines 258–281): the
full tail enters the cache, any evicted handle is closed, `currAppID` is
incremented, the next segment file is opened and becomes the tail at
offset 0.  Note the source increments `currAppID` before the open, so a
failing open leaves the incremented id with the old tail handle. -/
def rollover (ff : Nat → Bool) (s : MultiFileAppendable) :
    MultiFileAppendable × Option MErr :=
  match putAndCloseEv ff s s.currAppID s.currApp with
  | (s1, some e) => (s1, some e)
  | (s1, none) =>
      match openAppendable ff { s1 with currAppID := s1.currAppID + 1 }
          (appendableName (s1.currAppID + 1) s1.fileExt) with
      | (none, w', e) => ({ s1 with currAppID := s1.currAppID + 1, world := w' }, e)
      | (some app, w', _) =>
          ({ s1 with
              currAppID := s1.currAppID + 1,
              currApp := handleSetOffset app 0,
              world := w' }, none)

/-- The source's `Append` loop (lines 255–301).  `off` and `n` accumulate
the returned logical start offset and byte count; the fuel bounds the
iteration count (`bs.length + 1` suffices whenever the store's segment
size is positive; `fuelOut` marks runs the Go code would not exit). -/
def appendLoop (ff : Nat → Bool) (bs : List Byte) :
    Nat → Nat → Nat → MultiFileAppendable →
    Nat × Nat × MultiFileAppendable × Option MErr
  | 0, off, n, s => (off, n, s, some .fuelOut)
  | fuel + 1, off, n, s =>
    if n < bs.length then
      let rolled : MultiFileAppendable × Option MErr :=
        if s.fileSize ≤ s.currApp.off then rollover ff s else (s, none)
      match rolled with
      | (s1, some e) => (off, n, s1, some e)
      | (s1, none) =>
          let available := s1.fileSize - s1.currApp.off
          let d := if s1.currApp.cf = NoCompression
                   then min available (bs.length - n)
                   else bs.length - n
          match handleWrite ff s1.world s1.currApp ((bs.drop n).take d) with
          | (_, _, w', some e) => (off, n, { s1 with world := w' }, some e)
          | (offn, h', w', none) =>
              let off' := if n = 0 then offn + s1.currAppID * s1.fileSize else off
              appendLoop ff bs fuel off' (n + d) { s1 with currApp := h', world := w' }
    else (off, n, s, none)

/-- The source's `Append` (lines 239–304). -/
def Append (ff : Nat → Bool) (s : MultiFileAppendable) (bs : List Byte) :
    Nat × Nat × MultiFileAppendable × Option MErr :=
  if s.closed then (0, 0, s, some .alreadyClosed)
  else if s.readOnly then (0, 0, s, some .readOnlyErr)
  else if bs.length = 0 then (0, 0, s, some .illegalArguments)
  else appendLoop ff bs (bs.length + 1) 0 0 s

/-- The source's `Offset` (lines 318–323).  Note: no closed-state check
and no error return. -/
def Offset (s : MultiFileAppendable) : Nat :=
  s.currAppID * s.fileSize + s.currApp.off

/-- The source's `Size` (lines 224–237). -/
def Size (s : MultiFileAppendable) : Nat × Option MErr :=
  if s.closed then (0, some .alreadyClosed)
  else (s.currAppID * s.fileSize + handleSize s.world s.currApp, none)

/-- The source's `Metadata` (lines 216–222): the wrapped caller metadata
of the tail's header, `nil` (here `[]`) when absent.  Note: no
closed-state check and no error return. -/
def Metadata (s : MultiFileAppendable) : List Byte :=
  (metaGetBytes s.currApp.meta metaWrappedMeta).getD []

/-- The source's `CompressionFormat` (lines 202–207).  Note: no
closed-state check and no error return. -/
def CompressionFormat (s : MultiFileAppendable) : Nat := s.currApp.cf

/-- The source's `CompressionLevel` (lines 209–214).  Note: no
closed-state check and no error return. -/
def CompressionLevel (s : MultiFileAppendable) : Nat := s.currApp.cl

/-- The source's `SetOffset` (lines 325–358).  When the target segment
differs from the tail, the newly opened handle is inserted into the cache
under the id that is about to become `currAppID`, and the previous tail
handle is neither closed nor cached. -/
def SetOffset (ff : Nat → Bool) (s : MultiFileAppendable) (off : Nat) :
    MultiFileAppendable × Option MErr :=
  if s.closed then (s, some .alreadyClosed)
  else
    let appID := appendableID off s.fileSize
    if s.currAppID ≠ appID then
      match openAppendable ff s (appendableName appID s.fileExt) with
      | (none, w', e) => ({ s with world := w' }, e)
      | (some app, w', _) =>
          match putAndCloseEv ff { s with world := w' } appID app with
          | (s1, some e) => (s1, some e)
          | (s1, none) =>
              let s2 := { s1 with currAppID := appID, currApp := app }
              ({ s2 with currApp := handleSetOffset s2.currApp (off % s2.fileSize) }, none)
    else ({ s with currApp := handleSetOffset s.currApp (off % s.fileSize) }, none)

/-- The source's `appendableFor` (lines 360–396): the handle for the
segment containing `off` is resolved through the cache alone — there is no
special case for the current tail id — and a cache miss opens the segment
file with the store's mode (not read-only) and inserts it into the cache,
closing any evicted handle. -/
def appendableFor (ff : Nat → Bool) (s : MultiFileAppendable) (off : Nat) :
    Option Handle × MultiFileAppendable × Option MErr :=
  if s.closed then (none, s, some .alreadyClosed)
  else
    let appID := appendableID off s.fileSize
    match cacheGet s.appendables appID with
    | some (app, c') => (some app, { s with appendables := c' }, none)
    | none =>
        match openAppendable ff s (appendableName appID s.fileExt) with
        | (none, w', e) => (none, { s with world := w' }, e)
        | (some app, w', _) =>
            match putAndCloseEv ff { s with world := w' } appID app with
            | (s1, some e) => (none, s1, some e)
            | (s1, none) => (some app, s1, none)

/-- The loop of the source's `ReadAt` (lines 405–423), accumulating the
bytes read; the count `r` of the source is `acc.length`. -/
def readLoop (ff : Nat → Bool) (len off : Nat) :
    Nat → List Byte → MultiFileAppendable →
    List Byte × MultiFileAppendable × Option MErr
  | 0, acc, s => (acc, s, some .fuelOut)
  | fuel + 1, acc, s =>
    if acc.length < len then
      let offr := off + acc.length
      match appendableFor ff s offr with
      | (none, s', e) => (acc, s', e)
      | (some app, s', _) =>
          let rr := handleReadAt s'.world app (len - acc.length) (offr % s'.fileSize)
          let acc' := acc ++ rr.1
          match rr.2 with
          | some .eof =>
              if 0 < rr.1.length then readLoop ff len off fuel acc' s'
              else (acc', s', some .eof)
          | some e => (acc', s', some e)
          | none => readLoop ff len off fuel acc' s'
    else (acc, s, none)

/-- The source's `ReadAt` (lines 398–426), returning the bytes read in
place of the caller's buffer. -/
def ReadAt (ff : Nat → Bool) (s : MultiFileAppendable) (len off : Nat) :
    List Byte × MultiFileAppendable × Option MErr :=
  if len = 0 then ([], s, some .illegalArguments)
  else readLoop ff len off (len + 1) [] s

/-- The source's `Flush` (lines 428–448).  Flushing a cached handle or the
tail has no observable effect in this model (writes are unbuffered), so
only the closed-state gate remains. -/
def Flush (s : MultiFileAppendable) : MultiFileAppendable × Option MErr :=
  if s.closed then (s, some .alreadyClosed) else (s, none)

/-- The source's `Sync` (lines 450–470); as for `Flush`, only the
closed-state gate is observable in the model. -/
def Sync (s : MultiFileAppendable) : MultiFileAppendable × Option MErr :=
  if s.closed then (s, some .alreadyClosed) else (s, none)

/-- Close every handle of a list in turn, stopping at the first failure —
the `appendables.Apply` step of the source's `Close`. -/
def closeList (ff : Nat → Bool) : List (Nat × Handle) → World → World × Option MErr
  | [], w => (w, none)
  | _ :: rest, w =>
      match handleClose ff w with
      | (w', some e) => (w', some e)
      | (w', none) => closeList ff rest w'

/-- The source's `Close` (lines 472–490): sets `closed`, closes every
cached handle, then the tail. -/
def Close (ff : Nat → Bool) (s : MultiFileAppendable) :
    MultiFileAppendable × Option MErr :=
  if s.closed then (s, some .alreadyClosed)
  else
    let s1 := { s with closed := true }
    match closeList ff s1.appendables s1.world with
    | (w', some e) => ({ s1 with world := w' }, some e)
    | (w', none) =>
        match handleClose ff w' with
        | (w'', e) => ({ s1 with world := w'' }, e)

/-- The source's `Copy` (lines 148–184): after the closed-state gate it
flushes and syncs; the destination directory and the byte-for-byte file
copy are outside the modelled store and have no observable effect here. -/
def Copy (s : MultiFileAppendable) : MultiFileAppendable × Option MErr :=
  if s.closed then (s, some .alreadyClosed)
  else
    match Flush s with
    | (s1, some e) => (s1, some e)
    | (s1, none) =>
        match Sync s1 with
        | (s2, e) => (s2, e)

/-! ### Derived notions used by the statements -/

/-- The byte of the logical stream at offset `o`: segment `o / S`, in-file
position `o mod S` — the mapping of spec section 3. -/
def logicalByte (s : MultiFileAppendable) (o : Nat) : Option Byte :=
  (fsFind s.world.fs (appendableName (o / s.fileSize) s.fileExt)).bind
    (fun f => f.content[o % s.fileSize]?)

/-- Well-formedness of an open writable store without compression, as
established by `Open` on a store of this shape and preserved by its
operations: positive segment size, an uncompressed tail handle positioned
within the segment and named after `currAppID`, a dot-free extension, and
a directory whose files are all uncompressed. -/
def goodTail (s : MultiFileAppendable) : Bool :=
  decide (0 < s.fileSize) && (s.currApp.cf == NoCompression) &&
  decide (s.currApp.off ≤ s.fileSize) &&
  (s.currApp.name == appendableName s.currAppID s.fileExt) &&
  extNoDot s.fileExt && (!s.readOnly) && (!s.currApp.ro) && (!s.closed) &&
  (fsFind s.world.fs s.currApp.name).isSome &&
  s.world.fs.all (fun e => e.2.cf == NoCompression)

/-- Every cached handle is named after its cache key. -/
def cacheNamesOK (s : MultiFileAppendable) : Bool :=
  s.appendables.all (fun kv => kv.2.name == appendableName kv.1 s.fileExt)

/-- Every cache key is strictly below the current tail id. -/
def cacheKeysLt (s : MultiFileAppendable) : Bool :=
  s.appendables.all (fun kv => decide (kv.1 < s.currAppID))

/-- The ghost handle count equals one (the tail) plus the cache residency,
and the residency is within the configured capacity. -/
def countOK (s : MultiFileAppendable) : Bool :=
  (s.world.openCount == 1 + s.appendables.length) &&
  decide (s.appendables.length ≤ s.maxCap)

/-- Public operations for reachability statements over append-style use
(the operations that never target a segment id at or below the tail id). -/
inductive MOp where
  | append (bs : List Byte)
  | flushOp
  | syncOp
deriving DecidableEq, Repr

/-- Run one operation, keeping the resulting state (fault-free world). -/
def runOp (s : MultiFileAppendable) : MOp → MultiFileAppendable
  | .append bs => (Append noFaults s bs).2.2.1
  | .flushOp => (Flush s).1
  | .syncOp => (Sync s).1

def runOps (s : MultiFileAppendable) (ops : List MOp) : MultiFileAppendable :=
  ops.foldl runOp s

/-- Modelled from the spec: the resolution rule asserted by the claim for
`read_at` — "if `segment_id(off)` is `tail_id`, use `tail`; else look it
up in the cache; on a cache miss, open the file read-only, insert into the
cache (closing any evicted handle), and use it" — for comparison with the
source's `appendableFor`. -/
def appendableForClaim (ff : Nat → Bool) (s : MultiFileAppendable) (off : Nat) :
    Option Handle × MultiFileAppendable × Option MErr :=
  if s.closed then (none, s, some .alreadyClosed)
  else
    let appID := appendableID off s.fileSize
    if appID = s.currAppID then (some s.currApp, s, none)
    else
      match cacheGet s.appendables appID with
      | some (app, c') => (some app, { s with appendables := c' }, none)
      | none =>
          match singleappOpen ff s.world (appendableName appID s.fileExt)
              { ro := true, cf := s.currApp.cf, cl := s.currApp.cl,
                meta := s.currApp.meta } with
          | (none, w', e) => (none, { s with world := w' }, e)
          | (some app, w', _) =>
              match putAndCloseEv ff { s with world := w' } appID app with
              | (s1, some e) => (none, s1, some e)
              | (s1, none) => (some app, s1, none)

/-! ### Concrete stores used by witnesses and counterexamples -/

/-- Options with segment size 4, cache capacity 1. -/
def optsA : Options :=
  { readOnly := false, synced := false, fileSize := 4, fileExt := "aof",
    maxOpenedFiles := 1, compressionFormat := 0, compressionLevel := 0,
    metadata := [7] }

/-- Options with segment size 8, cache capacity 2. -/
def optsB : Options :=
  { readOnly := false, synced := false, fileSize := 8, fileExt := "aof",
    maxOpenedFiles := 2, compressionFormat := 0, compressionLevel := 0,
    metadata := [9, 9] }

/-- A fresh writable store over an empty directory, segment size 4. -/
def storeA : MultiFileAppendable :=
  (Open noFaults false World.empty optsA).toOption.getD default

/-- A fresh writable store over an empty directory, segment size 8. -/
def storeB : MultiFileAppendable :=
  (Open noFaults false World.empty optsB).toOption.getD default

/-- The fault oracle failing exactly at primitive call number 2 — during
the trace below, the rollover's attempt to create the next segment file. -/
def failAt2 : Nat → Bool := fun n => n == 2

/-- The fault oracle failing exactly at primitive call number 3 — during
the trace below, the write of the second chunk after a rollover. -/
def failAt3 : Nat → Bool := fun n => n == 3

/-- The store of `storeA` after a legal `SetOffset` into segment 1. -/
def c3state : MultiFileAppendable := (SetOffset noFaults storeA 5).1

/-- `storeA` after appending five bytes (filling segment 0 and rolling
over into segment 1). -/
def c5mid : MultiFileAppendable := (Append noFaults storeA [1, 1, 1, 1, 1]).2.2.1

/-- `c5mid` after a legal `SetOffset` back to offset 0. -/
def c5state : MultiFileAppendable := (SetOffset noFaults c5mid 0).1

/-- `storeA` after appending two bytes (tail is segment 0, cache empty). -/
def c4state : MultiFileAppendable := (Append noFaults storeA [7, 8]).2.2.1

/-- The store of the C3 witness run: a five-byte append (one rollover)
from `storeA`. -/
def c3run : MultiFileAppendable := runOps storeA [MOp.append [1, 1, 1, 1, 1]]

/-- The one cache entry of `c3run`. -/
def c3kv : Nat × Handle :=
  c3run.appendables.getD 0
    (0, { name := "", off := 0, ro := false, meta := [], cf := 0, cl := 0 })

/-- The handle the source's `appendableFor` returns at `c4state` for
offset 0. -/
def c4app : Handle :=
  ((appendableFor noFaults c4state 0).1).getD
    { name := "", off := 0, ro := false, meta := [], cf := 0, cl := 0 }

/-- `storeB` after `Close`. -/
def c6state : MultiFileAppendable := (Close noFaults storeB).1

/-- A directory whose first entry's stem does not parse as an integer but
whose last (lexicographically greatest) entry parses. -/
def wC7 : World :=
  { fs := [("!x.aof", { meta := [], content := [], cf := 0, cl := 0 }),
           ("00000000.aof",
             { meta := [(metaFileSize, .int 8), (metaWrappedMeta, .bytes [])],
               content := [], cf := 0, cl := 0 })],
    openCount := 0, clock := 0 }

/-- A directory whose only entry's stem does not parse as an integer. -/
def wC7b : World :=
  { fs := [("zz.aof", { meta := [], content := [], cf := 0, cl := 0 })],
    openCount := 0, clock := 0 }

/-- A directory with one segment file whose header stores segment size 4
(differing from the `optsB` segment size 8). -/
def wC8 : World :=
  { fs := [("00000003.aof",
             { meta := [(metaFileSize, .int 4), (metaWrappedMeta, .bytes [5])],
               content := [1, 2], cf := 0, cl := 0 })],
    openCount := 0, clock := 0 }

/-- A directory whose tail segment's header lacks a decodable `FILE_SIZE`
entry. -/
def wC10 : World :=
  { fs := [("00000000.aof",
             { meta := [(metaWrappedMeta, .bytes [])], content := [], cf := 0, cl := 0 })],
    openCount := 0, clock := 0 }

/-- A fresh store over an empty directory opened under the `failAt2`
oracle (whose clock 0 tick succeeds), then one full-segment append. -/
def c9pre : MultiFileAppendable :=
  (Append failAt2 ((Open failAt2 false World.empty optsA).toOption.getD default)
    [1, 2, 3, 4]).2.2.1

/-- The faulty append: the rollover's attempt to create segment 1 hits the
injected fault at clock 2. -/
def c9res : Nat × Nat × MultiFileAppendable × Option MErr := Append failAt2 c9pre [5]

/-- The result of the `C1` scenario: six bytes appended to a fresh store
with segment size 4, spanning two segments. -/
def c1res : Nat × Nat × MultiFileAppendable × Option MErr :=
  Append noFaults storeA [10, 20, 30, 40, 50, 60]

/-- The result of the `C2` scenario: three bytes appended to a fresh store
with segment size 8. -/
def c2res : Nat × Nat × MultiFileAppendable × Option MErr :=
  Append noFaults storeB [1, 2, 3]

/-- The result of the `C9` witness scenario: a six-byte append on a fresh
store with segment size 4 whose second chunk's write (clock 3) faults. -/
def c9wres : Nat × Nat × MultiFileAppendable × Option MErr :=
  Append failAt3 storeA [5, 6, 7, 8, 9, 10]

/-! ### Lemmas: the file map and in-file writes -/

theorem fsFind_fsSet_same (fs : List (String × SegFile)) (n : String) (f : SegFile) :
    fsFind (fsSet fs n f) n = some f := by
  induction fs with
  | nil => simp [fsSet, fsFind]
  | cons e rest ih =>
      obtain ⟨a, g⟩ := e
      by_cases h : a = n
      · simp [fsSet, h, fsFind]
      · simp [fsSet, h, fsFind, ih]

theorem fsFind_fsSet_other (fs : List (String × SegFile)) (n m : String) (f : SegFile)
    (h : m ≠ n) : fsFind (fsSet fs n f) m = fsFind fs m := by
  have h' : ¬n = m := fun hh => h hh.symm
  induction fs with
  | nil => simp [fsSet, fsFind, h']
  | cons e rest ih =>
      obtain ⟨a, g⟩ := e
      by_cases ha : a = n
      · subst ha
        simp [fsSet, fsFind, h']
      · simp [fsSet, ha, fsFind, ih]

theorem fsSet_all (fs : List (String × SegFile)) (n : String) (f : SegFile)
    (p : String × SegFile → Bool) (hall : fs.all p = true) (hf : p (n, f) = true) :
    (fsSet fs n f).all p = true := by
  induction fs with
  | nil => simpa [fsSet]
  | cons e rest ih =>
      obtain ⟨a, g⟩ := e
      simp only [List.all_cons, Bool.and_eq_true] at hall
      by_cases h : a = n
      · subst h
        simp [fsSet, List.all_cons, hf, hall.2]
      · simp [fsSet, h, List.all_cons, hall.1, ih hall.2]

theorem fsFind_all (fs : List (String × SegFile)) (n : String) (f : SegFile)
    (p : String × SegFile → Bool) (hall : fs.all p = true) (hf : fsFind fs n = some f) :
    p (n, f) = true := by
  induction fs with
  | nil => simp [fsFind] at hf
  | cons e rest ih =>
      obtain ⟨a, g⟩ := e
      simp only [List.all_cons, Bool.and_eq_true] at hall
      by_cases h : a = n
      · subst h
        have hgf : some g = some f := by simpa [fsFind] using hf
        injection hgf with hgf
        subst hgf
        exact hall.1
      · simp only [fsFind, if_neg h] at hf
        exact ih hall.2 hf

theorem listWriteAt_length_pieces (cont : List Byte) (off : Nat) :
    (cont.take off).length + (List.replicate (off - cont.length) (0 : Byte)).length = off := by
  simp [List.length_take, List.length_replicate]
  omega

theorem listWriteAt_getElem_inside (cont : List Byte) (off k : Nat) (bs : List Byte)
    (hk : k < bs.length) : (listWriteAt cont off bs)[off + k]? = bs[k]? := by
  unfold listWriteAt
  have h1 := listWriteAt_length_pieces cont off
  rw [List.getElem?_append, if_pos (by simp [List.length_append]; omega)]
  rw [List.getElem?_append, if_neg (by simp [List.length_append]; omega)]
  congr 1
  simp [List.length_append]
  omega

theorem listWriteAt_getElem_lt (cont : List Byte) (off q : Nat) (bs : List Byte)
    (hq : q < off) (hlen : q < cont.length) :
    (listWriteAt cont off bs)[q]? = cont[q]? := by
  unfold listWriteAt
  have h1 := listWriteAt_length_pieces cont off
  rw [List.getElem?_append, if_pos (by simp [List.length_append]; omega)]
  rw [List.getElem?_append, if_pos (by simp [List.length_append]; omega)]
  rw [List.getElem?_append, if_pos (by simp [List.length_take]; omega)]
  rw [List.getElem?_take]
  simp [hq]

/-! ### Lemmas: file names parse back to their segment id -/

theorem digitChar_isDigit (d : Nat) (h : d < 10) : isDigitChar (digitChar d) = true := by
  interval_cases d <;> decide

theorem digitChar_toNat (d : Nat) (h : d < 10) : (digitChar d).toNat = 48 + d := by
  interval_cases d <;> decide

theorem digitChar_ne_dot (d : Nat) (h : d < 10) : (digitChar d != '.') = true := by
  interval_cases d <;> decide

theorem natDigitsAux_irrel (n : Nat) : ∀ f1 f2, n < f1 → n < f2 →
    natDigitsAux f1 n = natDigitsAux f2 n := by
  induction n using Nat.strong_induction_on with
  | _ n ih =>
      intro f1 f2 h1 h2
      cases f1 with
      | zero => omega
      | succ f1 =>
          cases f2 with
          | zero => omega
          | succ f2 =>
              show (if n < 10 then _ else _) = (if n < 10 then _ else _)
              by_cases h : n < 10
              · rw [if_pos h, if_pos h]
              · rw [if_neg h, if_neg h]
                have h10 : n / 10 < n := Nat.div_lt_self (by omega) (by omega)
                rw [ih (n / 10) h10 f1 f2 (by omega) (by omega)]

theorem natDigits_eq (n : Nat) :
    natDigits n
      = if n < 10 then [digitChar n]
        else natDigits (n / 10) ++ [digitChar (n % 10)] := by
  show (if n < 10 then [digitChar n]
        else natDigitsAux n (n / 10) ++ [digitChar (n % 10)]) = _
  by_cases h : n < 10
  · rw [if_pos h, if_pos h]
  · rw [if_neg h, if_neg h]
    have h10 : n / 10 < n := Nat.div_lt_self (by omega) (by omega)
    rw [natDigitsAux_irrel (n / 10) n (n / 10 + 1) h10 (Nat.lt_succ_self _)]
    rfl

theorem natDigits_all (n : Nat) :
    (natDigits n).all (fun ch => isDigitChar ch && (ch != '.')) = true := by
  induction n using Nat.strong_induction_on with
  | _ n ih =>
      rw [natDigits_eq]
      split
      · next h => simp [digitChar_isDigit n h, digitChar_ne_dot n h]
      · next h =>
          have h10 : n / 10 < n := Nat.div_lt_self (by omega) (by omega)
          have hm : n % 10 < 10 := Nat.mod_lt _ (by omega)
          have ha := ih _ h10
          simp only [List.all_append, Bool.and_eq_true, ha, true_and]
          simp [digitChar_isDigit _ hm, digitChar_ne_dot _ hm]

theorem natDigits_ne_nil (n : Nat) : natDigits n ≠ [] := by
  rw [natDigits_eq]
  split
  · simp
  · simp

theorem digitsVal_append_singleton (l : List Char) (ch : Char) :
    digitsVal (l ++ [ch]) = digitsVal l * 10 + (ch.toNat - 48) := by
  simp [digitsVal, List.foldl_append]

theorem digitsVal_natDigits (n : Nat) : digitsVal (natDigits n) = n := by
  induction n using Nat.strong_induction_on with
  | _ n ih =>
      rw [natDigits_eq]
      split
      · next h =>
          simp [digitsVal, digitChar_toNat n h]
      · next h =>
          have h10 : n / 10 < n := Nat.div_lt_self (by omega) (by omega)
          have hm : n % 10 < 10 := Nat.mod_lt _ (by omega)
          rw [digitsVal_append_singleton, ih _ h10, digitChar_toNat _ hm]
          omega

theorem foldl_digits_zero (k : Nat) (l : List Char) :
    List.foldl (fun a ch => a * 10 + (ch.toNat - 48)) 0 (List.replicate k '0' ++ l)
      = List.foldl (fun a ch => a * 10 + (ch.toNat - 48)) 0 l := by
  induction k with
  | zero => rfl
  | succ k ih =>
      rw [List.replicate_succ, List.cons_append, List.foldl_cons]
      have h0 : (0 : Nat) * 10 + ('0'.toNat - 48) = 0 := by decide
      rw [h0]
      exact ih

theorem contains_false_all_ne (l : List Char) (a : Char) (h : l.contains a = false) :
    l.all (fun ch => ch != a) = true := by
  induction l with
  | nil => rfl
  | cons x xs ih =>
      simp only [List.contains_cons, Bool.or_eq_false_iff] at h
      simp only [List.all_cons, Bool.and_eq_true]
      refine ⟨?_, ih h.2⟩
      simp only [bne_iff_ne, ne_eq]
      intro hxa
      subst hxa
      simp at h

theorem dropWhile_until_dot (l1 l2 : List Char) (h : l1.all (fun ch => ch != '.') = true) :
    (l1 ++ '.' :: l2).dropWhile (fun ch => ch != '.') = '.' :: l2 := by
  induction l1 with
  | nil => simp [List.dropWhile]
  | cons x xs ih =>
      simp only [List.all_cons, Bool.and_eq_true] at h
      rw [List.cons_append]
      simp only [List.dropWhile_cons, h.1, if_true]
      exact ih h.2

theorem stemChars_append_dot (stem ext2 : List Char)
    (he : ext2.all (fun ch => ch != '.') = true) :
    stemChars (stem ++ '.' :: ext2) = stem := by
  unfold stemChars
  have hrev : (stem ++ '.' :: ext2).reverse = ext2.reverse ++ '.' :: stem.reverse := by
    simp [List.reverse_append, List.reverse_cons, List.append_assoc]
  rw [hrev, dropWhile_until_dot _ _ (by rw [List.all_reverse]; exact he)]
  simp

theorem parseStem_appendableName (k : Nat) (ext : String) (he : extNoDot ext = true) :
    parseStem (appendableName k ext) = some k := by
  have hall := natDigits_all k
  have hne := natDigits_ne_nil k
  have hdig : (natDigits k).all isDigitChar = true := by
    rw [List.all_eq_true] at hall ⊢
    intro x hx
    have hx2 := hall x hx
    rw [Bool.and_eq_true] at hx2
    exact hx2.1
  have hdot : (natDigits k).all (fun ch => ch != '.') = true := by
    rw [List.all_eq_true] at hall ⊢
    intro x hx
    have hx2 := hall x hx
    rw [Bool.and_eq_true] at hx2
    exact hx2.2
  have hstem : (List.replicate (8 - (natDigits k).length) '0' ++ natDigits k).all
      (fun ch => ch != '.') = true := by
    simp only [List.all_append, Bool.and_eq_true, hdot, and_true]
    simp [List.all_replicate]
  have heall : ext.data.all (fun ch => ch != '.') = true := by
    apply contains_false_all_ne
    unfold extNoDot at he
    cases hcc : ext.data.contains '.' with
    | false => rfl
    | true => rw [hcc] at he; simp at he
  unfold parseStem appendableName
  have hdata : (String.mk (List.replicate (8 - (natDigits k).length) '0' ++ natDigits k
      ++ '.' :: ext.data)).data
      = (List.replicate (8 - (natDigits k).length) '0' ++ natDigits k) ++ '.' :: ext.data := by
    simp
  rw [hdata, stemChars_append_dot _ _ heall]
  have hcond : ((List.replicate (8 - (natDigits k).length) '0' ++ natDigits k) ≠ []
      && (List.replicate (8 - (natDigits k).length) '0' ++ natDigits k).all isDigitChar) = true := by
    simp only [Bool.and_eq_true, decide_eq_true_eq, ne_eq, List.append_eq_nil]
    constructor
    · simp [hne]
    · simp only [List.all_append, Bool.and_eq_true, hdig, and_true]
      simp [List.all_replicate, show isDigitChar '0' = true from by decide]
  rw [if_pos hcond]
  unfold digitsVal at *
  rw [foldl_digits_zero]
  exact congrArg some (digitsVal_natDigits k)

theorem appendableName_inj (ext : String) (he : extNoDot ext = true) (k k' : Nat)
    (h : appendableName k ext = appendableName k' ext) : k = k' := by
  have h1 := parseStem_appendableName k ext he
  have h2 := parseStem_appendableName k' ext he
  rw [h, h2] at h1
  injection h1 with hh
  exact hh.symm

/-! ### Lemmas: the LRU cache -/

theorem cacheErase_all (c : List (Nat × Handle)) (k : Nat) (p : Nat × Handle → Bool)
    (h : c.all p = true) : (cacheErase c k).all p = true := by
  induction c with
  | nil => rfl
  | cons e rest ih =>
      simp only [List.all_cons, Bool.and_eq_true] at h
      obtain ⟨a, v⟩ := e
      by_cases ha : a = k
      · simp [cacheErase, ha, ih h.2]
      · simp [cacheErase, ha, List.all_cons, h.1, ih h.2]

theorem dropLast_all {α : Type} (l : List α) (p : α → Bool) (h : l.all p = true) :
    l.dropLast.all p = true := by
  rw [List.all_eq_true] at h ⊢
  intro x hx
  exact h x (List.dropLast_subset l hx)

theorem cacheLookup_all (c : List (Nat × Handle)) (k : Nat) (hd : Handle)
    (p : Nat × Handle → Bool) (hall : c.all p = true) (hl : cacheLookup c k = some hd) :
    p (k, hd) = true := by
  induction c with
  | nil => simp [cacheLookup] at hl
  | cons e rest ih =>
      obtain ⟨a, v⟩ := e
      simp only [List.all_cons, Bool.and_eq_true] at hall
      by_cases ha : a = k
      · subst ha
        have hv : some v = some hd := by simpa [cacheLookup] using hl
        injection hv with hv
        subst hv
        exact hall.1
      · simp only [cacheLookup, if_neg ha] at hl
        exact ih hall.2 hl

theorem cachePut_all (cap : Nat) (c : List (Nat × Handle)) (k : Nat) (v : Handle)
    (p : Nat × Handle → Bool) (hall : c.all p = true) (hk : p (k, v) = true) :
    (cachePut cap c k v).1.all p = true := by
  unfold cachePut
  split
  · simp [List.all_cons, hk, cacheErase_all _ _ _ hall]
  · split
    · simp [List.all_cons, hk, hall]
    · exact dropLast_all _ _ (by simp [List.all_cons, hk, hall])

theorem cacheGet_all (c : List (Nat × Handle)) (k : Nat) (hd : Handle)
    (c' : List (Nat × Handle)) (p : Nat × Handle → Bool) (hall : c.all p = true)
    (hg : cacheGet c k = some (hd, c')) : p (k, hd) = true ∧ c'.all p = true := by
  unfold cacheGet at hg
  cases hl : cacheLookup c k with
  | none => rw [hl] at hg; simp at hg
  | some h0 =>
      rw [hl] at hg
      simp only [Option.some.injEq, Prod.mk.injEq] at hg
      obtain ⟨h1, h2⟩ := hg
      have hp := cacheLookup_all c k h0 p hall hl
      constructor
      · rw [← h1]; exact hp
      · rw [← h2]
        simp [List.all_cons, hp, cacheErase_all _ _ _ hall]

theorem cacheLookup_none_of_keysLt (c : List (Nat × Handle)) (k : Nat)
    (h : c.all (fun kv => decide (kv.1 < k)) = true) : cacheLookup c k = none := by
  induction c with
  | nil => rfl
  | cons e rest ih =>
      obtain ⟨a, v⟩ := e
      simp only [List.all_cons, Bool.and_eq_true] at h
      have ha : a ≠ k := by
        have := of_decide_eq_true h.1
        omega
      simp only [cacheLookup, if_neg ha]
      exact ih h.2

/-! ### Lemmas: modelled primitives -/

theorem singleappOpen_none (ff : Nat → Bool) (w : World) (name : String) (o : SAOpts)
    (w' : World) (e : Option MErr) (h : singleappOpen ff w name o = (none, w', e)) :
    e = some .ioOpen ∧ w'.fs = w.fs ∧ w'.openCount = w.openCount := by
  cases hff : ff w.clock with
  | true =>
      simp only [singleappOpen, tick, hff, if_true, Prod.mk.injEq, true_and] at h
      obtain ⟨h2, h3⟩ := h
      subst h2; subst h3
      exact ⟨rfl, rfl, rfl⟩
  | false =>
      cases hfind : fsFind w.fs name with
      | some f =>
          simp [singleappOpen, tick, hff, hfind] at h
      | none =>
          cases hro : o.ro with
          | true =>
              simp only [singleappOpen, tick, hff, hfind, hro, Bool.false_eq_true, if_false,
                if_true, Prod.mk.injEq, true_and] at h
              obtain ⟨h2, h3⟩ := h
              subst h2; subst h3
              exact ⟨rfl, rfl, rfl⟩
          | false =>
              simp [singleappOpen, tick, hff, hfind, hro] at h

theorem singleappOpen_noFaults_ne_none (w : World) (name : String) (o : SAOpts)
    (hro : o.ro = false) (w' : World) (e : Option MErr) :
    singleappOpen noFaults w name o ≠ (none, w', e) := by
  intro h
  cases hfind : fsFind w.fs name with
  | some f => simp [singleappOpen, tick, noFaults, hfind] at h
  | none => simp [singleappOpen, tick, noFaults, hfind, hro] at h

theorem singleappOpen_some (ff : Nat → Bool) (w : World) (name : String) (o : SAOpts)
    (hd : Handle) (w' : World) (e : Option MErr)
    (heq : singleappOpen ff w name o = (some hd, w', e)) :
    e = none ∧ hd.name = name ∧ hd.ro = o.ro ∧ w'.openCount = w.openCount + 1
    ∧ (fsFind w'.fs name).isSome = true
    ∧ (∀ m, m ≠ name → fsFind w'.fs m = fsFind w.fs m)
    ∧ (fsFind w.fs name = none →
        hd.off = 0 ∧ hd.meta = o.meta ∧ hd.cf = o.cf
        ∧ w'.fs = fsSet w.fs name { meta := o.meta, content := [], cf := o.cf, cl := o.cl })
    ∧ (∀ f, fsFind w.fs name = some f →
        hd.off = f.content.length ∧ hd.meta = f.meta ∧ hd.cf = f.cf ∧ w'.fs = w.fs) := by
  cases hff : ff w.clock with
  | true => simp [singleappOpen, tick, hff] at heq
  | false =>
      cases hfind : fsFind w.fs name with
      | some f =>
          simp only [singleappOpen, tick, hff, hfind, Bool.false_eq_true, if_false,
            Prod.mk.injEq, Option.some.injEq] at heq
          obtain ⟨h1, h2, h3⟩ := heq
          subst h2; subst h3
          rw [← h1]
          refine ⟨rfl, rfl, rfl, rfl, ?_, ?_, ?_, ?_⟩
          · simp [hfind]
          · intro m _; rfl
          · intro hc; simp [hfind] at hc
          · intro g hg
            injection hg with hg
            subst hg
            exact ⟨rfl, rfl, rfl, rfl⟩
      | none =>
          cases hro : o.ro with
          | true => simp [singleappOpen, tick, hff, hfind, hro] at heq
          | false =>
              simp only [singleappOpen, tick, hff, hfind, hro, Bool.false_eq_true, if_false,
                Prod.mk.injEq, Option.some.injEq] at heq
              obtain ⟨h1, h2, h3⟩ := heq
              subst h2; subst h3
              rw [← h1]
              refine ⟨rfl, rfl, rfl, rfl, ?_, ?_, ?_, ?_⟩
              · simp [fsFind_fsSet_same]
              · intro m hm
                exact fsFind_fsSet_other _ _ _ _ hm
              · intro _; exact ⟨rfl, rfl, rfl, rfl⟩
              · intro g hg; simp at hg

theorem handleWrite_some (ff : Nat → Bool) (w : World) (h : Handle) (bs : List Byte)
    (offn : Nat) (h' : Handle) (w' : World)
    (heq : handleWrite ff w h bs = (offn, h', w', none)) :
    ∃ f, fsFind w.fs h.name = some f ∧ offn = h.off
      ∧ h' = { h with off := h.off + bs.length } ∧ h.ro = false
      ∧ w' = { w with
          fs := fsSet w.fs h.name { f with content := listWriteAt f.content h.off bs },
          clock := w.clock + 1 } := by
  cases hff : ff w.clock with
  | true => simp [handleWrite, tick, hff] at heq
  | false =>
      cases hro : h.ro with
      | true => simp [handleWrite, tick, hff, hro] at heq
      | false =>
          cases hfind : fsFind w.fs h.name with
          | none => simp [handleWrite, tick, hff, hro, hfind] at heq
          | some f =>
              simp only [handleWrite, tick, hff, hro, hfind, Bool.false_eq_true, if_false,
                Prod.mk.injEq] at heq
              obtain ⟨h1, h2, h3, _⟩ := heq
              subst h1; subst h2; subst h3
              exact ⟨f, rfl, rfl, rfl, rfl, rfl⟩

theorem handleWrite_err (ff : Nat → Bool) (w : World) (h : Handle) (bs : List Byte)
    (a : Nat) (b : Handle) (w' : World) (ew : MErr)
    (heq : handleWrite ff w h bs = (a, b, w', some ew)) :
    w'.fs = w.fs ∧ w'.openCount = w.openCount := by
  cases hff : ff w.clock with
  | true =>
      simp only [handleWrite, tick, hff, if_true, Prod.mk.injEq] at heq
      obtain ⟨_, _, h3, _⟩ := heq
      subst h3
      exact ⟨rfl, rfl⟩
  | false =>
      cases hro : h.ro with
      | true =>
          simp only [handleWrite, tick, hff, hro, Bool.false_eq_true, if_false, if_true,
            Prod.mk.injEq] at heq
          obtain ⟨_, _, h3, _⟩ := heq
          subst h3
          exact ⟨rfl, rfl⟩
      | false =>
          cases hfind : fsFind w.fs h.name with
          | none =>
              simp only [handleWrite, tick, hff, hro, hfind, Bool.false_eq_true, if_false,
                Prod.mk.injEq] at heq
              obtain ⟨_, _, h3, _⟩ := heq
              subst h3
              exact ⟨rfl, rfl⟩
          | some f => simp [handleWrite, tick, hff, hro, hfind] at heq

theorem handleWrite_noFaults (w : World) (h : Handle) (bs : List Byte) (f : SegFile)
    (hro : h.ro = false) (hf : fsFind w.fs h.name = some f) :
    handleWrite noFaults w h bs =
      (h.off, { h with off := h.off + bs.length },
       { w with fs := fsSet w.fs h.name { f with content := listWriteAt f.content h.off bs },
                clock := w.clock + 1 }, none) := by
  simp [handleWrite, tick, noFaults, hro, hf]

theorem handleClose_noFaults (w : World) :
    handleClose noFaults w =
      ({ w with clock := w.clock + 1, openCount := w.openCount - 1 }, none) := by
  simp [handleClose, tick, noFaults]

theorem putAndCloseEv_spec (ff : Nat → Bool) (s : MultiFileAppendable) (k : Nat)
    (hd : Handle) (s2 : MultiFileAppendable) (e2 : Option MErr)
    (hP : putAndCloseEv ff s k hd = (s2, e2)) :
    s2.currAppID = s.currAppID ∧ s2.currApp = s.currApp ∧ s2.closed = s.closed
    ∧ s2.readOnly = s.readOnly ∧ s2.fileSize = s.fileSize ∧ s2.fileExt = s.fileExt
    ∧ s2.maxCap = s.maxCap ∧ s2.world.fs = s.world.fs
    ∧ s2.appendables = (cachePut s.maxCap s.appendables k hd).1
    ∧ (ff = noFaults → e2 = none) := by
  rcases hpr : cachePut s.maxCap s.appendables k hd with ⟨c2, ev⟩
  simp only [putAndCloseEv, hpr] at hP
  cases ev with
  | none =>
      simp only [Prod.mk.injEq] at hP
      obtain ⟨h1, h2⟩ := hP
      subst h1; subst h2
      exact ⟨rfl, rfl, rfl, rfl, rfl, rfl, rfl, rfl, rfl, fun _ => rfl⟩
  | some evv =>
      rcases hC : handleClose ff s.world with ⟨wc, ec⟩
      rw [show handleClose ff
          ({ s with appendables := c2 } : MultiFileAppendable).world = (wc, ec) from hC] at hP
      simp only [Prod.mk.injEq] at hP
      obtain ⟨h1, h2⟩ := hP
      subst h1; subst h2
      refine ⟨rfl, rfl, rfl, rfl, rfl, rfl, rfl, ?_, rfl, ?_⟩
      · cases hff : ff s.world.clock with
        | true =>
            simp only [handleClose, tick, hff, if_true, Prod.mk.injEq] at hC
            obtain ⟨hw, _⟩ := hC
            subst hw
            rfl
        | false =>
            simp only [handleClose, tick, hff, Bool.false_eq_true, if_false,
              Prod.mk.injEq] at hC
            obtain ⟨hw, _⟩ := hC
            subst hw
            rfl
      · intro hffn
        subst hffn
        rw [handleClose_noFaults] at hC
        injection hC with _ hec
        exact hec.symm

/-! ### Lemmas: reading one byte back -/

theorem getElem?_some_lt (l : List Byte) (i : Nat) (b : Byte) (h : l[i]? = some b) :
    i < l.length := by
  by_contra hc
  rw [List.getElem?_eq_none (by omega)] at h
  cases h

theorem all_imp {α : Type} (l : List α) (p q : α → Bool)
    (h : ∀ x, p x = true → q x = true) (hl : l.all p = true) : l.all q = true := by
  rw [List.all_eq_true] at hl ⊢
  exact fun x hx => h x (hl x hx)

theorem drop_take_one (l : List Byte) (i : Nat) (b : Byte) (h : l[i]? = some b) :
    (l.drop i).take 1 = [b] := by
  have hi := getElem?_some_lt _ _ _ h
  rw [List.drop_eq_getElem_cons hi]
  rw [List.getElem?_eq_getElem hi] at h
  injection h with h
  rw [h]
  rfl

theorem singleappOpen_noFaults_ne_none_of_exists (w : World) (name : String) (o : SAOpts)
    (f : SegFile) (hf : fsFind w.fs name = some f) (w' : World) (e : Option MErr) :
    singleappOpen noFaults w name o ≠ (none, w', e) := by
  simp [singleappOpen, tick, noFaults, hf]

theorem singleappOpen_noFaults_exists (w : World) (name : String) (o : SAOpts) (f : SegFile)
    (hf : fsFind w.fs name = some f) :
    singleappOpen noFaults w name o =
      (some { name := name, off := f.content.length, ro := o.ro, meta := f.meta,
              cf := f.cf, cl := f.cl },
       { w with clock := w.clock + 1, openCount := w.openCount + 1 }, none) := by
  simp [singleappOpen, tick, noFaults, hf]

theorem handleReadAt_single (w : World) (h : Handle) (inOff : Nat) (b : Byte) (f : SegFile)
    (hf : fsFind w.fs h.name = some f) (hb : f.content[inOff]? = some b) :
    handleReadAt w h 1 inOff = ([b], none) := by
  have hlt := getElem?_some_lt _ _ _ hb
  have hrn : min 1 (f.content.length - inOff) = 1 := by omega
  simp only [handleReadAt, hf, hrn]
  rw [drop_take_one f.content inOff b hb]
  simp

theorem appendableFor_found (s : MultiFileAppendable) (off : Nat)
    (hcl : s.closed = false) (hcn : cacheNamesOK s = true)
    (hfile : (fsFind s.world.fs
      (appendableName (appendableID off s.fileSize) s.fileExt)).isSome = true) :
    ∃ app s2, appendableFor noFaults s off = (some app, s2, none)
      ∧ app.name = appendableName (appendableID off s.fileSize) s.fileExt
      ∧ s2.world.fs = s.world.fs ∧ s2.fileSize = s.fileSize ∧ s2.fileExt = s.fileExt
      ∧ s2.closed = s.closed := by
  obtain ⟨f, hfind⟩ : ∃ f, fsFind s.world.fs
      (appendableName (appendableID off s.fileSize) s.fileExt) = some f := by
    cases hff : fsFind s.world.fs (appendableName (appendableID off s.fileSize) s.fileExt) with
    | none => rw [hff] at hfile; cases hfile
    | some f => exact ⟨f, rfl⟩
  cases hget : cacheGet s.appendables (appendableID off s.fileSize) with
  | some pr =>
      obtain ⟨app, c2⟩ := pr
      have hpn := cacheGet_all s.appendables _ app c2 _ hcn hget
      refine ⟨app, { s with appendables := c2 }, ?_, ?_, rfl, rfl, rfl, rfl⟩
      · simp only [appendableFor, hcl, Bool.false_eq_true, if_false, hget]
      · have := hpn.1
        simpa using this
  | none =>
      rcases hSO : singleappOpen noFaults s.world
          (appendableName (appendableID off s.fileSize) s.fileExt)
          { ro := s.readOnly, cf := s.currApp.cf, cl := s.currApp.cl,
            meta := s.currApp.meta } with ⟨oh, w1, eo⟩
      cases oh with
      | none =>
          exact absurd hSO
            (singleappOpen_noFaults_ne_none_of_exists s.world _ _ f hfind _ _)
      | some hdl =>
          obtain ⟨heo, hdname, _, _, _, _, _, hexist⟩ :=
            singleappOpen_some _ _ _ _ _ _ _ hSO
          subst heo
          have hw1fs : w1.fs = s.world.fs := (hexist f hfind).2.2.2
          rcases hPC : putAndCloseEv noFaults
              { appendables := s.appendables, maxCap := s.maxCap,
                currAppID := s.currAppID, currApp := s.currApp,
                readOnly := s.readOnly, synced := s.synced, fileSize := s.fileSize,
                fileExt := s.fileExt, closed := false, world := w1 }
              (appendableID off s.fileSize) hdl with ⟨s2, e2⟩
          obtain ⟨_, _, hpcl, _, hpfs, hpext, _, hpwfs, _, hpnf⟩ :=
            putAndCloseEv_spec _ _ _ _ _ _ hPC
          have he2 : e2 = none := hpnf rfl
          subst he2
          refine ⟨hdl, s2, ?_, hdname, ?_, hpfs, hpext, hpcl.trans hcl.symm⟩
          · simp only [appendableFor, hcl, Bool.false_eq_true, if_false, hget, openAppendable]
            rw [hSO]
            simp only [hPC]
          · rw [show s2.world.fs = w1.fs from hpwfs]
            exact hw1fs

theorem ReadAt_single (s : MultiFileAppendable) (o : Nat) (b : Byte)
    (hcl : s.closed = false) (hcn : cacheNamesOK s = true)
    (hb : logicalByte s o = some b) :
    (ReadAt noFaults s 1 o).1 = [b] ∧ (ReadAt noFaults s 1 o).2.2 = none := by
  obtain ⟨f, hfind, hbyte⟩ : ∃ f, fsFind s.world.fs
      (appendableName (o / s.fileSize) s.fileExt) = some f
      ∧ f.content[o % s.fileSize]? = some b := by
    unfold logicalByte at hb
    cases hff : fsFind s.world.fs (appendableName (o / s.fileSize) s.fileExt) with
    | none => rw [hff] at hb; cases hb
    | some f =>
        rw [hff] at hb
        exact ⟨f, rfl, hb⟩
  obtain ⟨app, s2, hAF, hname, hwfs, hfs, hext, _⟩ :=
    appendableFor_found s o hcl hcn (by rw [show appendableID o s.fileSize = o / s.fileSize from rfl, hfind]; rfl)
  have hread : handleReadAt s2.world app 1 (o % s2.fileSize) = ([b], none) := by
    apply handleReadAt_single s2.world app (o % s2.fileSize) b f
    · rw [hname, hwfs]
      show fsFind s.world.fs (appendableName (o / s.fileSize) s.fileExt) = some f
      exact hfind
    · rw [hfs]
      exact hbyte
  have hloop : readLoop noFaults 1 o 2 [] s = ([b], s2, none) := by
    rw [show (2 : Nat) = 1 + 1 from rfl]
    simp [readLoop, hAF, hread]
  unfold ReadAt
  simp only [Nat.one_ne_zero, if_false]
  rw [hloop]
  exact ⟨rfl, rfl⟩

/-! ### Lemmas: offset arithmetic and the well-formedness predicate -/

theorem div_mul_add_self (id r S : Nat) (hS : 0 < S) (hr : r < S) :
    (id * S + r) / S = id ∧ (id * S + r) % S = r := by
  constructor
  · rw [Nat.add_comm, Nat.mul_comm, Nat.add_mul_div_left _ _ hS, Nat.div_eq_of_lt hr]
    omega
  · rw [Nat.add_comm, Nat.mul_comm, Nat.add_mul_mod_self_left, Nat.mod_eq_of_lt hr]

theorem logicalByte_at (s : MultiFileAppendable) (id r : Nat) (hS : 0 < s.fileSize)
    (hr : r < s.fileSize) :
    logicalByte s (id * s.fileSize + r)
      = (fsFind s.world.fs (appendableName id s.fileExt)).bind (fun f => f.content[r]?) := by
  unfold logicalByte
  rw [(div_mul_add_self id r s.fileSize hS hr).1, (div_mul_add_self id r s.fileSize hS hr).2]

theorem logicalByte_congr (s s' : MultiFileAppendable) (o : Nat)
    (h1 : s'.world.fs = s.world.fs) (h2 : s'.fileSize = s.fileSize)
    (h3 : s'.fileExt = s.fileExt) : logicalByte s' o = logicalByte s o := by
  unfold logicalByte
  rw [h1, h2, h3]

theorem goodTail_iff (s : MultiFileAppendable) : goodTail s = true ↔
    (0 < s.fileSize ∧ s.currApp.cf = NoCompression ∧ s.currApp.off ≤ s.fileSize
      ∧ s.currApp.name = appendableName s.currAppID s.fileExt ∧ extNoDot s.fileExt = true
      ∧ s.readOnly = false ∧ s.currApp.ro = false ∧ s.closed = false
      ∧ (fsFind s.world.fs s.currApp.name).isSome = true
      ∧ s.world.fs.all (fun e => e.2.cf == NoCompression) = true) := by
  unfold goodTail
  simp only [Bool.and_eq_true, decide_eq_true_eq, beq_iff_eq, Bool.not_eq_true']
  tauto

/-- The facts about the (possibly) rolled-over state at the head of one
`Append` loop iteration: the `if available ≤ 0 then rollover` step. -/
theorem rolled_spec (ff : Nat → Bool) (s s1 : MultiFileAppendable) (e1 : Option MErr)
    (hg : goodTail s = true)
    (hR : (if s.fileSize ≤ s.currApp.off then rollover ff s else (s, none)) = (s1, e1)) :
    (s1.closed = s.closed ∧ s1.readOnly = s.readOnly ∧ s1.fileSize = s.fileSize
      ∧ s1.fileExt = s.fileExt ∧ s1.maxCap = s.maxCap)
    ∧ (∀ q b, q < Offset s → logicalByte s q = some b → logicalByte s1 q = some b)
    ∧ (cacheNamesOK s = true → cacheNamesOK s1 = true)
    ∧ (e1 = none → goodTail s1 = true ∧ Offset s1 = Offset s ∧ s1.currApp.off < s1.fileSize)
    ∧ (e1 ≠ none → e1 ≠ some .ioOpen → goodTail s1 = true ∧ Offset s1 = Offset s)
    ∧ (ff = noFaults → e1 = none) := by
  obtain ⟨hS, hcf, hoffle, hname, hext, hro, haro, hcl, hfe, hacf⟩ := (goodTail_iff s).mp hg
  by_cases hroll : s.fileSize ≤ s.currApp.off
  case neg =>
      rw [if_neg hroll] at hR
      injection hR with hs1 he1
      subst hs1; subst he1
      refine ⟨⟨rfl, rfl, rfl, rfl, rfl⟩, fun q b _ hb => hb, fun h => h, ?_, ?_, fun _ => rfl⟩
      · intro _
        exact ⟨hg, rfl, by omega⟩
      · intro hne _
        exact absurd rfl hne
  case pos =>
      rw [if_pos hroll] at hR
      have hoffeq : s.currApp.off = s.fileSize := le_antisymm hoffle hroll
      unfold rollover at hR
      split at hR
      case h_1 sp epv hdisc =>
          obtain ⟨hpid, hpapp, hpcl, hpro, hpfs, hpext, hpcap, hpwfs, hpcache, hpnf⟩ :=
            putAndCloseEv_spec ff s _ _ _ _ hdisc
          have hcacheOK : cacheNamesOK s = true → cacheNamesOK sp = true := by
            intro hcn
            unfold cacheNamesOK at hcn ⊢
            rw [hpcache, hpext]
            apply cachePut_all _ _ _ _ _ hcn
            simp only [beq_iff_eq]
            exact hname
          injection hR with h1 h2
          subst h1; subst h2
          refine ⟨⟨hpcl, hpro, hpfs, hpext, hpcap⟩, ?_, hcacheOK, ?_, ?_, ?_⟩
          · intro q b _ hb
            rw [logicalByte_congr s sp q hpwfs hpfs hpext]
            exact hb
          · intro hc; cases hc
          · intro _ _
            constructor
            · rw [goodTail_iff]
              exact ⟨by omega, by rw [hpapp]; exact hcf, by rw [hpapp, hpfs]; exact hoffle,
                by rw [hpapp, hpid, hpext]; exact hname, by rw [hpext]; exact hext,
                by rw [hpro]; exact hro, by rw [hpapp]; exact haro, by rw [hpcl]; exact hcl,
                by rw [hpapp, hpwfs]; exact hfe, by rw [hpwfs]; exact hacf⟩
            · unfold Offset
              rw [hpapp, hpid, hpfs]
          · intro hffn
            exact absurd (hpnf hffn) (by simp)
      case h_2 sp hdisc =>
          obtain ⟨hpid, hpapp, hpcl, hpro, hpfs, hpext, hpcap, hpwfs, hpcache, hpnf⟩ :=
            putAndCloseEv_spec ff s _ _ _ _ hdisc
          have hcacheOK : cacheNamesOK s = true → cacheNamesOK sp = true := by
            intro hcn
            unfold cacheNamesOK at hcn ⊢
            rw [hpcache, hpext]
            apply cachePut_all _ _ _ _ _ hcn
            simp only [beq_iff_eq]
            exact hname
          split at hR
          case h_1 w2 eo hdisc2 =>
              have hdisc3 : singleappOpen ff sp.world
                  (appendableName (sp.currAppID + 1) sp.fileExt)
                  { ro := sp.readOnly, cf := sp.currApp.cf, cl := sp.currApp.cl,
                    meta := sp.currApp.meta } = (none, w2, eo) := hdisc2
              obtain ⟨heo, hwfs, _⟩ := singleappOpen_none ff _ _ _ _ _ hdisc3
              injection hR with h1 h2
              subst h1; subst h2
              subst heo
              refine ⟨⟨hpcl, hpro, hpfs, hpext, hpcap⟩, ?_, hcacheOK, ?_, ?_, ?_⟩
              · intro q b _ hb
                have hc1 : ({ sp with currAppID := sp.currAppID + 1, world := w2
                    } : MultiFileAppendable).world.fs = s.world.fs := by
                  show w2.fs = s.world.fs
                  rw [hwfs]
                  exact hpwfs
                rw [logicalByte_congr s _ q hc1 hpfs hpext]
                exact hb
              · intro hc; cases hc
              · intro _ hne
                exact absurd rfl hne
              · intro hffn
                subst hffn
                exact absurd hdisc3
                  (singleappOpen_noFaults_ne_none _ _ _ (by rw [hpro]; exact hro) _ _)
          case h_2 app w2 eo hdisc2 =>
              have hdisc3 : singleappOpen ff sp.world
                  (appendableName (sp.currAppID + 1) sp.fileExt)
                  { ro := sp.readOnly, cf := sp.currApp.cf, cl := sp.currApp.cl,
                    meta := sp.currApp.meta } = (some app, w2, eo) := hdisc2
              obtain ⟨heo, hna, hroa, _, hsome2, hother, hcreate, hexist⟩ :=
                singleappOpen_some ff _ _ _ _ _ _ hdisc3
              injection hR with h1 h2
              subst h1; subst h2
              have hfsall : w2.fs.all (fun e => e.2.cf == NoCompression) = true := by
                cases hfind : fsFind sp.world.fs (appendableName (sp.currAppID + 1) sp.fileExt) with
                | some f =>
                    rw [(hexist f hfind).2.2.2, hpwfs]
                    exact hacf
                | none =>
                    rw [(hcreate hfind).2.2.2]
                    apply fsSet_all
                    · rw [hpwfs]; exact hacf
                    · simp only [beq_iff_eq]
                      show sp.currApp.cf = NoCompression
                      rw [hpapp]
                      exact hcf
              have happcf : app.cf = NoCompression := by
                cases hfind : fsFind sp.world.fs (appendableName (sp.currAppID + 1) sp.fileExt) with
                | some f =>
                    rw [(hexist f hfind).2.2.1]
                    have := fsFind_all _ _ _ _ (by rw [hpwfs]; exact hacf) hfind
                    simpa using this
                | none =>
                    rw [(hcreate hfind).2.2.1]
                    show sp.currApp.cf = NoCompression
                    rw [hpapp]
                    exact hcf
              refine ⟨⟨hpcl, hpro, hpfs, hpext, hpcap⟩, ?_, hcacheOK, ?_, ?_, ?_⟩
              · intro q b hq hb
                have hmul : (s.currAppID + 1) * s.fileSize
                    = s.currAppID * s.fileSize + s.fileSize := by ring
                have hqid : q / s.fileSize < sp.currAppID + 1 := by
                  rw [hpid]
                  apply (Nat.div_lt_iff_lt_mul hS).mpr
                  unfold Offset at hq
                  rw [hoffeq] at hq
                  omega
                have hne2 : appendableName (q / s.fileSize) s.fileExt
                    ≠ appendableName (sp.currAppID + 1) sp.fileExt := by
                  rw [hpext]
                  intro hcontra
                  have := appendableName_inj s.fileExt hext _ _ hcontra
                  omega
                show (fsFind w2.fs (appendableName (q / sp.fileSize) sp.fileExt)).bind
                    (fun f => f.content[q % sp.fileSize]?) = some b
                rw [hpfs, hpext, hother _ hne2, hpwfs]
                unfold logicalByte at hb
                exact hb
              · intro _
                refine ⟨?_, ?_, ?_⟩
                · rw [goodTail_iff]
                  refine ⟨by show 0 < sp.fileSize; omega, ?_, ?_, ?_, ?_, ?_, ?_, ?_, ?_, hfsall⟩
                  · show app.cf = NoCompression
                    exact happcf
                  · show 0 ≤ sp.fileSize
                    exact Nat.zero_le _
                  · show app.name = appendableName (sp.currAppID + 1) sp.fileExt
                    exact hna
                  · show extNoDot sp.fileExt = true
                    rw [hpext]; exact hext
                  · show sp.readOnly = false
                    rw [hpro]; exact hro
                  · show app.ro = false
                    rw [hroa, hpro]; exact hro
                  · show sp.closed = false
                    rw [hpcl]; exact hcl
                  · show (fsFind w2.fs app.name).isSome = true
                    rw [hna]; exact hsome2
                · show (sp.currAppID + 1) * sp.fileSize + 0 = Offset s
                  unfold Offset
                  rw [hpid, hpfs, hoffeq]
                  ring
                · show 0 < sp.fileSize
                  omega
              · intro hne _
                exact absurd rfl hne
              · intro _
                rfl

/-! ### Lemmas: handle counting -/

theorem putAndCloseEv_count (s : MultiFileAppendable) (k : Nat) (v : Handle)
    (s2 : MultiFileAppendable) (e2 : Option MErr)
    (hfresh : cacheLookup s.appendables k = none)
    (hP : putAndCloseEv noFaults s k v = (s2, e2)) :
    e2 = none
    ∧ ((s.appendables.length < s.maxCap
          ∧ s2.appendables.length = s.appendables.length + 1
          ∧ s2.world.openCount = s.world.openCount)
       ∨ (¬ s.appendables.length < s.maxCap
          ∧ s2.appendables.length = s.appendables.length
          ∧ s2.world.openCount = s.world.openCount - 1)) := by
  by_cases hlen : s.appendables.length < s.maxCap
  · have hput : cachePut s.maxCap s.appendables k v = ((k, v) :: s.appendables, none) := by
      unfold cachePut
      rw [hfresh]
      simp [hlen]
    simp only [putAndCloseEv, hput] at hP
    simp only [Prod.mk.injEq] at hP
    obtain ⟨h1, h2⟩ := hP
    subst h1; subst h2
    refine ⟨rfl, Or.inl ⟨hlen, by simp, rfl⟩⟩
  · cases hlast : ((k, v) :: s.appendables).getLast? with
    | none => simp at hlast
    | some ev =>
        have hput : cachePut s.maxCap s.appendables k v
            = (((k, v) :: s.appendables).dropLast, some ev) := by
          unfold cachePut
          rw [hfresh]
          simp [hlen, hlast]
        simp only [putAndCloseEv, hput, handleClose_noFaults] at hP
        simp only [Prod.mk.injEq] at hP
        obtain ⟨h1, h2⟩ := hP
        subst h1; subst h2
        refine ⟨rfl, Or.inr ⟨hlen, ?_, rfl⟩⟩
        simp [List.length_dropLast]

theorem rollover_count (s : MultiFileAppendable) (sr : MultiFileAppendable) (er : Option MErr)
    (hro : s.readOnly = false) (hc : countOK s = true) (hk : cacheKeysLt s = true)
    (hR : rollover noFaults s = (sr, er)) :
    er = none ∧ countOK sr = true ∧ cacheKeysLt sr = true
    ∧ sr.closed = s.closed ∧ sr.readOnly = s.readOnly ∧ sr.maxCap = s.maxCap := by
  have hfresh : cacheLookup s.appendables s.currAppID = none := by
    apply cacheLookup_none_of_keysLt
    unfold cacheKeysLt at hk
    exact hk
  unfold rollover at hR
  split at hR
  case h_1 s1 e hdisc =>
      obtain ⟨hern, _⟩ := putAndCloseEv_count s _ _ _ _ hfresh hdisc
      cases hern
  case h_2 s1 hdisc =>
      obtain ⟨_, hcnt⟩ := putAndCloseEv_count s _ _ _ _ hfresh hdisc
      obtain ⟨hpid, _, hpcl, hpro, _, _, hpcap, _, hpcache, _⟩ :=
        putAndCloseEv_spec _ _ _ _ _ _ hdisc
      split at hR
      case h_1 w2 eo hdisc2 =>
          have hro1 : s1.readOnly = false := by rw [hpro]; exact hro
          exact absurd hdisc2 (singleappOpen_noFaults_ne_none _ _ _ hro1 _ _)
      case h_2 app w2 eo hdisc2 =>
          obtain ⟨_, _, _, hoc2, _, _, _, _⟩ := singleappOpen_some _ _ _ _ _ _ _ hdisc2
          injection hR with h1 h2
          subst h1; subst h2
          have hoc2' : w2.openCount = s1.world.openCount + 1 := hoc2
          refine ⟨rfl, ?_, ?_, hpcl, hpro, hpcap⟩
          · unfold countOK at hc ⊢
            simp only [Bool.and_eq_true, beq_iff_eq, decide_eq_true_eq] at hc ⊢
            show w2.openCount = 1 + s1.appendables.length ∧ s1.appendables.length ≤ s1.maxCap
            have hcap2 : s1.maxCap = s.maxCap := hpcap
            rcases hcnt with ⟨h1', h2', h3'⟩ | ⟨h1', h2', h3'⟩ <;>
              (constructor <;> omega)
          · unfold cacheKeysLt at hk ⊢
            show s1.appendables.all (fun kv => decide (kv.1 < s1.currAppID + 1)) = true
            rw [hpcache, hpid]
            apply cachePut_all
            · apply all_imp _ _ _ _ hk
              intro x hx
              simp only [decide_eq_true_eq] at hx ⊢
              omega
            · simp
  
theorem appendLoop_count (bs : List Byte) :
    ∀ fuel n off s off2 n2 s2 e,
      appendLoop noFaults bs fuel off n s = (off2, n2, s2, e) →
      s.closed = false → s.readOnly = false → countOK s = true → cacheKeysLt s = true →
      countOK s2 = true ∧ cacheKeysLt s2 = true ∧ s2.closed = s.closed
      ∧ s2.readOnly = s.readOnly ∧ s2.maxCap = s.maxCap := by
  intro fuel
  induction fuel with
  | zero =>
      intro n off s off2 n2 s2 e heq hcl hro hc hk
      simp only [appendLoop, Prod.mk.injEq] at heq
      obtain ⟨_, _, h3, _⟩ := heq
      subst h3
      exact ⟨hc, hk, rfl, rfl, rfl⟩
  | succ fuel ih =>
      intro n off s off2 n2 s2 e heq hcl hro hc hk
      simp only [appendLoop] at heq
      by_cases hlen : n < bs.length
      case neg =>
        rw [if_neg hlen] at heq
        simp only [Prod.mk.injEq] at heq
        obtain ⟨_, _, h3, _⟩ := heq
        subst h3
        exact ⟨hc, hk, rfl, rfl, rfl⟩
      case pos =>
        rw [if_pos hlen] at heq
        split at heq
        case h_1 s1 e1v hdisc =>
            by_cases hroll : s.fileSize ≤ s.currApp.off
            · rw [if_pos hroll] at hdisc
              obtain ⟨hern, _⟩ := rollover_count s _ _ hro hc hk hdisc
              cases hern
            · rw [if_neg hroll] at hdisc
              injection hdisc with _ hcontra
              cases hcontra
        case h_2 s1 hdisc =>
            have hfacts : countOK s1 = true ∧ cacheKeysLt s1 = true ∧ s1.closed = s.closed
                ∧ s1.readOnly = s.readOnly ∧ s1.maxCap = s.maxCap := by
              by_cases hroll : s.fileSize ≤ s.currApp.off
              · rw [if_pos hroll] at hdisc
                obtain ⟨_, a, b, c, d, e2⟩ := rollover_count s _ _ hro hc hk hdisc
                exact ⟨a, b, c, d, e2⟩
              · rw [if_neg hroll] at hdisc
                injection hdisc with h1 _
                subst h1
                exact ⟨hc, hk, rfl, rfl, rfl⟩
            obtain ⟨hc1, hk1, hcl1, hro1, hcap1⟩ := hfacts
            split at heq
            case h_1 x1 x2 w2 ew hdisc2 =>
                obtain ⟨_, hoc⟩ := handleWrite_err _ _ _ _ _ _ _ _ hdisc2
                simp only [Prod.mk.injEq] at heq
                obtain ⟨_, _, h3, _⟩ := heq
                subst h3
                refine ⟨?_, hk1, hcl1, hro1, hcap1⟩
                unfold countOK at hc1 ⊢
                simp only [Bool.and_eq_true, beq_iff_eq, decide_eq_true_eq] at hc1 ⊢
                show (w2.openCount = 1 + s1.appendables.length
                  ∧ s1.appendables.length ≤ s1.maxCap)
                omega
            case h_2 offn hND w2 hdisc2 =>
                obtain ⟨f, hfind1, hoffn, hh2, _, hw2⟩ :=
                  handleWrite_some _ _ _ _ _ _ _ hdisc2
                subst hoffn; subst hh2; subst hw2
                have hstep := ih _ _ _ _ _ _ _ heq (show _ = false from hcl1.trans hcl)
                  (show _ = false from hro1.trans hro) ?_ ?_
                · obtain ⟨a, b, c, d, e2⟩ := hstep
                  exact ⟨a, b, c.trans hcl1, d.trans hro1, e2.trans hcap1⟩
                · unfold countOK at hc1 ⊢
                  simp only [Bool.and_eq_true, beq_iff_eq, decide_eq_true_eq] at hc1 ⊢
                  exact hc1
                · unfold cacheKeysLt at hk1 ⊢
                  exact hk1

theorem Append_count (s : MultiFileAppendable) (bs : List Byte)
    (hcl : s.closed = false) (hro : s.readOnly = false)
    (hc : countOK s = true) (hk : cacheKeysLt s = true) :
    countOK (Append noFaults s bs).2.2.1 = true
    ∧ cacheKeysLt (Append noFaults s bs).2.2.1 = true
    ∧ (Append noFaults s bs).2.2.1.closed = false
    ∧ (Append noFaults s bs).2.2.1.readOnly = false
    ∧ (Append noFaults s bs).2.2.1.maxCap = s.maxCap := by
  unfold Append
  rw [hcl, hro]
  simp only [Bool.false_eq_true, if_false]
  by_cases hbs : bs.length = 0
  · rw [if_pos hbs]
    exact ⟨hc, hk, hcl, hro, rfl⟩
  · rw [if_neg hbs]
    rcases hL : appendLoop noFaults bs (bs.length + 1) 0 0 s with ⟨o2, n2, s2, e⟩
    obtain ⟨a, b, c, d, e2⟩ := appendLoop_count bs _ _ _ _ _ _ _ _ hL hcl hro hc hk
    exact ⟨a, b, c.trans hcl, d.trans hro, e2⟩

theorem runOps_inv (ops : List MOp) : ∀ s : MultiFileAppendable,
    countOK s = true → cacheKeysLt s = true → s.closed = false → s.readOnly = false →
    countOK (runOps s ops) = true ∧ cacheKeysLt (runOps s ops) = true
    ∧ (runOps s ops).closed = false ∧ (runOps s ops).readOnly = false
    ∧ (runOps s ops).maxCap = s.maxCap := by
  induction ops with
  | nil =>
      intro s hc hk hcl hro
      exact ⟨hc, hk, hcl, hro, rfl⟩
  | cons op rest ih =>
      intro s hc hk hcl hro
      have hfold : runOps s (op :: rest) = runOps (runOp s op) rest := by
        unfold runOps
        rw [List.foldl_cons]
      rw [hfold]
      have hstep : countOK (runOp s op) = true ∧ cacheKeysLt (runOp s op) = true
          ∧ (runOp s op).closed = false ∧ (runOp s op).readOnly = false
          ∧ (runOp s op).maxCap = s.maxCap := by
        cases op with
        | append bs => exact Append_count s bs hcl hro hc hk
        | flushOp =>
            have hthis : runOp s .flushOp = s := by
              show (Flush s).1 = s
              unfold Flush
              split <;> rfl
            rw [hthis]
            exact ⟨hc, hk, hcl, hro, rfl⟩
        | syncOp =>
            have hthis : runOp s .syncOp = s := by
              show (Sync s).1 = s
              unfold Sync
              split <;> rfl
            rw [hthis]
            exact ⟨hc, hk, hcl, hro, rfl⟩
      obtain ⟨a, b, c, d, e2⟩ := hstep
      obtain ⟨a2, b2, c2, d2, e3⟩ := ih (runOp s op) a b c d
      exact ⟨a2, b2, c2, d2, e3.trans e2⟩

theorem Open_fresh_inv (opts : Options) (st : MultiFileAppendable)
    (hv : validOptions opts = true) (hro : opts.readOnly = false)
    (h : Open noFaults false World.empty opts = .ok st) :
    st.appendables = [] ∧ st.maxCap = opts.maxOpenedFiles ∧ st.currAppID = 0
    ∧ st.readOnly = false ∧ st.closed = false ∧ st.fileSize = opts.fileSize
    ∧ st.world.openCount = 1 := by
  simp only [Open, hv, hro, Bool.not_true, Bool.false_eq_true, if_false, Bool.and_false,
    Bool.not_false, singleappOpen, tick, noFaults, World.empty, fsFind, appendableID,
    metaGetInt, metaFileSize, metaWrappedMeta, List.getLast?, if_true, Nat.zero_div,
    Except.ok.injEq] at h
  subst h
  exact ⟨rfl, rfl, rfl, rfl, rfl, rfl, rfl⟩

/-- The master invariant of the source's `Append` loop: byte counting, the
returned start offset, each written byte landing at its logical position,
preservation of previously written bytes, preservation of the store's
well-formedness (except after a failed segment creation), and
error-freedom of fault-free runs with enough fuel. -/
theorem appendLoop_master (ff : Nat → Bool) (bs : List Byte) :
    ∀ fuel n off s off' n' s' e,
      appendLoop ff bs fuel off n s = (off', n', s', e) →
      goodTail s = true → n ≤ bs.length →
      ((n ≤ n' ∧ n' ≤ bs.length)
        ∧ (e = none → n' = bs.length)
        ∧ (0 < n' → n = 0 → off' = Offset s)
        ∧ (0 < n → off' = off)
        ∧ (∀ k, n ≤ k → k < n' → logicalByte s' (Offset s + (k - n)) = bs[k]?)
        ∧ (∀ q b, q < Offset s → logicalByte s q = some b → logicalByte s' q = some b)
        ∧ (e ≠ some .ioOpen → goodTail s' = true ∧ Offset s' = Offset s + (n' - n))
        ∧ (s'.closed = s.closed ∧ s'.readOnly = s.readOnly ∧ s'.fileSize = s.fileSize
            ∧ s'.fileExt = s.fileExt ∧ s'.maxCap = s.maxCap)
        ∧ (cacheNamesOK s = true → cacheNamesOK s' = true)
        ∧ (ff = noFaults → bs.length - n < fuel → e = none)) := by
  intro fuel
  induction fuel with
  | zero =>
      intro n off s off' n' s' e heq hg hn
      simp only [appendLoop, Prod.mk.injEq] at heq
      obtain ⟨h1, h2, h3, h4⟩ := heq
      subst h1; subst h2; subst h3; subst h4
      refine ⟨⟨le_refl n, hn⟩, ?_, ?_, fun _ => rfl, ?_, fun q b _ hb => hb,
        fun _ => ⟨hg, by omega⟩, ⟨rfl, rfl, rfl, rfl, rfl⟩, fun h => h, ?_⟩
      · intro hc; cases hc
      · intro h1' h2'
        exact absurd h1' (by omega)
      · intro k hk1 hk2
        exact absurd hk2 (by omega)
      · intro _ hfuel
        exact absurd hfuel (by omega)
  | succ fuel ih =>
      intro n off s off' n' s' e heq hg hn
      simp only [appendLoop] at heq
      by_cases hlen : n < bs.length
      case neg =>
          rw [if_neg hlen] at heq
          simp only [Prod.mk.injEq] at heq
          obtain ⟨h1, h2, h3, h4⟩ := heq
          subst h1; subst h2; subst h3; subst h4
          have hnl : n = bs.length := by omega
          refine ⟨⟨le_refl n, hn⟩, fun _ => hnl, ?_, fun _ => rfl, ?_, fun q b _ hb => hb,
            fun _ => ⟨hg, by omega⟩, ⟨rfl, rfl, rfl, rfl, rfl⟩, fun h => h, fun _ _ => rfl⟩
          · intro h1' h2'
            exact absurd h1' (by omega)
          · intro k hk1 hk2
            exact absurd hk2 (by omega)
      case pos =>
          rw [if_pos hlen] at heq
          split at heq
          case h_1 s1 e1v hdisc =>
              obtain ⟨hfields, hpres, hcache, _, herr, hnf⟩ :=
                rolled_spec ff s s1 (some e1v) hg hdisc
              simp only [Prod.mk.injEq] at heq
              obtain ⟨h1, h2, h3, h4⟩ := heq
              subst h1; subst h2; subst h3; subst h4
              refine ⟨⟨le_refl n, hn⟩, ?_, ?_, fun _ => rfl, ?_, hpres, ?_, hfields, hcache, ?_⟩
              · intro hc; cases hc
              · intro h1' h2'
                exact absurd h1' (by omega)
              · intro k hk1 hk2
                exact absurd hk2 (by omega)
              · intro hne
                have h := herr (by simp) hne
                refine ⟨h.1, by omega⟩
              · intro hffn _
                exact absurd (hnf hffn) (by simp)
          case h_2 s1 hdisc =>
              obtain ⟨hfields, hpres, hcache, hnone, _, _⟩ := rolled_spec ff s s1 none hg hdisc
              obtain ⟨hg1, hoff1, hofflt⟩ := hnone rfl
              obtain ⟨hcl1, hro1, hfs1, hext1, hcap1⟩ := hfields
              obtain ⟨hS1, hcf1, hoffle1, hname1, hextd1, hrof1, haro1, hclf1, hfe1, hacf1⟩ :=
                (goodTail_iff s1).mp hg1
              rw [if_pos hcf1] at heq
              have hoffsexp : Offset s = s1.currAppID * s1.fileSize + s1.currApp.off := by
                rw [← hoff1]
                rfl
              split at heq
              case h_1 x1 x2 w2 ew hdisc2 =>
                  obtain ⟨hwfs2, _⟩ := handleWrite_err ff s1.world s1.currApp _ _ _ _ _ hdisc2
                  simp only [Prod.mk.injEq] at heq
                  obtain ⟨h1, h2, h3, h4⟩ := heq
                  subst h1; subst h2; subst h3; subst h4
                  have hc1 : ({ s1 with world := w2 } : MultiFileAppendable).world.fs
                      = s1.world.fs := hwfs2
                  refine ⟨⟨le_refl n, hn⟩, ?_, ?_, fun _ => rfl, ?_, ?_, ?_, ?_, ?_, ?_⟩
                  · intro hc; cases hc
                  · intro h1' h2'
                    exact absurd h1' (by omega)
                  · intro k hk1 hk2
                    exact absurd hk2 (by omega)
                  · intro q b hq hb
                    rw [logicalByte_congr s1 _ q hc1 rfl rfl]
                    exact hpres q b hq hb
                  · intro _
                    constructor
                    · rw [goodTail_iff]
                      refine ⟨hS1, hcf1, hoffle1, hname1, hextd1, hrof1, haro1, hclf1, ?_, ?_⟩
                      · show (fsFind w2.fs s1.currApp.name).isSome = true
                        rw [hwfs2]
                        exact hfe1
                      · show w2.fs.all (fun e => e.2.cf == NoCompression) = true
                        rw [hwfs2]
                        exact hacf1
                    · show Offset s1 = Offset s + (n - n)
                      omega
                  · exact ⟨hcl1, hro1, hfs1, hext1, hcap1⟩
                  · intro h
                    exact hcache h
                  · intro hffn _
                    subst hffn
                    obtain ⟨f, hf⟩ : ∃ f, fsFind s1.world.fs s1.currApp.name = some f := by
                      cases hff : fsFind s1.world.fs s1.currApp.name with
                      | none => rw [hff] at hfe1; cases hfe1
                      | some f => exact ⟨f, rfl⟩
                    rw [handleWrite_noFaults s1.world s1.currApp _ f haro1 hf] at hdisc2
                    simp at hdisc2
              case h_2 offn hND w2 hdisc2 =>
                  obtain ⟨f, hfind1, hoffn, hh', _, hw2⟩ :=
                    handleWrite_some ff s1.world s1.currApp _ _ _ _ hdisc2
                  subst hoffn
                  subst hh'
                  subst hw2
                  set d := min (s1.fileSize - s1.currApp.off) (bs.length - n) with hd
                  have hd1 : 1 ≤ d := by omega
                  have hdlen : n + d ≤ bs.length := by omega
                  have hchunklen : ((bs.drop n).take d).length = d := by
                    simp [List.length_take, List.length_drop]
                    omega
                  have hoffd : s1.currApp.off + d ≤ s1.fileSize := by omega
                  set s2 : MultiFileAppendable :=
                    { s1 with
                        currApp := { s1.currApp with off := s1.currApp.off + ((bs.drop n).take d).length },
                        world :=
                          { s1.world with
                              fs := fsSet s1.world.fs s1.currApp.name
                                { f with content := listWriteAt f.content s1.currApp.off ((bs.drop n).take d) },
                              clock := s1.world.clock + 1 } } with hs2
                  have hfcf : f.cf = NoCompression := by
                    have := fsFind_all _ _ _ _ hacf1 hfind1
                    simpa using this
                  have hg2 : goodTail s2 = true := by
                    rw [goodTail_iff]
                    refine ⟨hS1, hcf1, ?_, hname1, hextd1, hrof1, haro1, hclf1, ?_, ?_⟩
                    · show s1.currApp.off + ((bs.drop n).take d).length ≤ s1.fileSize
                      rw [hchunklen]
                      exact hoffd
                    · show (fsFind (fsSet s1.world.fs s1.currApp.name _) s1.currApp.name).isSome = true
                      rw [fsFind_fsSet_same]
                      rfl
                    · show (fsSet s1.world.fs s1.currApp.name _).all
                          (fun e => e.2.cf == NoCompression) = true
                      apply fsSet_all _ _ _ _ hacf1
                      simp only [beq_iff_eq]
                      exact hfcf
                  have hoffs2 : Offset s2 = Offset s + d := by
                    show s1.currAppID * s1.fileSize
                        + (s1.currApp.off + ((bs.drop n).take d).length) = Offset s + d
                    rw [hchunklen, hoffsexp]
                    omega
                  have hwrote : ∀ j, j < d →
                      logicalByte s2 (Offset s + j) = bs[n + j]? := by
                    intro j hj
                    have hpos : Offset s + j
                        = s1.currAppID * s2.fileSize + (s1.currApp.off + j) := by
                      show Offset s + j = s1.currAppID * s1.fileSize + (s1.currApp.off + j)
                      rw [hoffsexp]
                      omega
                    rw [hpos, logicalByte_at s2 s1.currAppID (s1.currApp.off + j) hS1
                      (show s1.currApp.off + j < s1.fileSize from by omega)]
                    show (fsFind (fsSet s1.world.fs s1.currApp.name _)
                        (appendableName s1.currAppID s1.fileExt)).bind
                        (fun g => g.content[s1.currApp.off + j]?) = bs[n + j]?
                    rw [← hname1, fsFind_fsSet_same]
                    show (listWriteAt f.content s1.currApp.off ((bs.drop n).take d))[s1.currApp.off + j]?
                        = bs[n + j]?
                    rw [listWriteAt_getElem_inside _ _ _ _ (by omega)]
                    rw [List.getElem?_take, if_pos hj, List.getElem?_drop]
                  have hkeep : ∀ q b, q < Offset s → logicalByte s1 q = some b →
                      logicalByte s2 q = some b := by
                    intro q b hq hb
                    have hdm := Nat.div_add_mod q s1.fileSize
                    by_cases hqid : q / s1.fileSize = s1.currAppID
                    · have hmodlt : q % s1.fileSize < s1.currApp.off := by
                        rw [hqid] at hdm
                        rw [hoffsexp] at hq
                        have hmc : s1.fileSize * s1.currAppID
                            = s1.currAppID * s1.fileSize := by ring
                        omega
                      unfold logicalByte at hb ⊢
                      show (fsFind (fsSet s1.world.fs s1.currApp.name _)
                          (appendableName (q / s1.fileSize) s1.fileExt)).bind
                          (fun g => g.content[q % s1.fileSize]?) = some b
                      rw [hqid, ← hname1, fsFind_fsSet_same]
                      rw [hqid, ← hname1, hfind1] at hb
                      have hb2 : f.content[q % s1.fileSize]? = some b := hb
                      show (listWriteAt f.content s1.currApp.off
                          ((bs.drop n).take d))[q % s1.fileSize]? = some b
                      rw [listWriteAt_getElem_lt _ _ _ _ hmodlt (getElem?_some_lt _ _ _ hb2)]
                      exact hb2
                    · have hnamene : appendableName (q / s1.fileSize) s1.fileExt
                          ≠ s1.currApp.name := by
                        rw [hname1]
                        intro hcontra
                        exact hqid (appendableName_inj s1.fileExt hextd1 _ _ hcontra)
                      unfold logicalByte at hb ⊢
                      show (fsFind (fsSet s1.world.fs s1.currApp.name _)
                          (appendableName (q / s1.fileSize) s1.fileExt)).bind
                          (fun g => g.content[q % s1.fileSize]?) = some b
                      rw [fsFind_fsSet_other _ _ _ _ hnamene]
                      exact hb
                  obtain ⟨ihc1, ihc2, ihc3, ihc4, ihc5, ihc6, ihc7, ihc8, ihc9, ihc10⟩ :=
                    ih (n + d) (if n = 0 then s1.currApp.off + s1.currAppID * s1.fileSize else off)
                      s2 off' n' s' e heq hg2 hdlen
                  have hoffval : (if n = 0 then s1.currApp.off + s1.currAppID * s1.fileSize else off)
                      = (if n = 0 then Offset s else off) := by
                    by_cases hn0 : n = 0
                    · rw [if_pos hn0, if_pos hn0, hoffsexp]
                      omega
                    · rw [if_neg hn0, if_neg hn0]
                  refine ⟨⟨by omega, ihc1.2⟩, ihc2, ?_, ?_, ?_, ?_, ?_, ?_, ?_, ?_⟩
                  · intro _ hn0
                    have := ihc4 (by omega)
                    rw [hoffval, if_pos hn0] at this
                    exact this
                  · intro hnpos
                    have := ihc4 (by omega)
                    rw [hoffval, if_neg (by omega)] at this
                    exact this
                  · intro k hk1 hk2
                    by_cases hkd : k < n + d
                    · have hwk := hwrote (k - n) (by omega)
                      have hlt : Offset s + (k - n) < Offset s2 := by
                        rw [hoffs2]
                        omega
                      rw [show n + (k - n) = k from by omega] at hwk
                      have hklen : k < bs.length := by omega
                      obtain ⟨b, hbk⟩ : ∃ b, bs[k]? = some b :=
                        ⟨bs[k], List.getElem?_eq_getElem hklen⟩
                      rw [hbk] at hwk
                      rw [hbk]
                      exact ihc6 (Offset s + (k - n)) b hlt hwk
                    · have := ihc5 k (by omega) hk2
                      rw [show Offset s2 + (k - (n + d)) = Offset s + (k - n) from by
                        rw [hoffs2]; omega] at this
                      exact this
                  · intro q b hq hb
                    exact ihc6 q b (by rw [hoffs2]; omega) (hkeep q b hq (hpres q b hq hb))
                  · intro hne
                    obtain ⟨hgt, hofft⟩ := ihc7 hne
                    refine ⟨hgt, ?_⟩
                    rw [hofft, hoffs2]
                    omega
                  · obtain ⟨i1, i2, i3, i4, i5⟩ := ihc8
                    exact ⟨i1.trans hcl1, i2.trans hro1, i3.trans hfs1, i4.trans hext1,
                      i5.trans hcap1⟩
                  · intro h
                    exact ihc9 (hcache h)
                  · intro hffn hfuel
                    exact ihc10 hffn (by omega)

/-! ### Claim C1 -/

/-- C1: For every successful `Append bs` on an open writable store
(uncompressed, well-formed — `goodTail`, with correctly named cached
handles) returning `(start, n)`, `n = bs.length`, and a subsequent
`ReadAt` of one byte at any logical offset `o ∈ [start, start + n)`,
with no intervening `SetOffset`, returns the byte `bs[o - start]`. -/
theorem C1_append_readAt_roundtrip (s : MultiFileAppendable) (bs : List Byte)
    (o off2 n2 : Nat) (s2 : MultiFileAppendable)
    (hg : goodTail s = true) (hcn : cacheNamesOK s = true)
    (happ : Append noFaults s bs = (off2, n2, s2, none))
    (ho1 : off2 ≤ o) (ho2 : o < off2 + n2) :
    n2 = bs.length
    ∧ (ReadAt noFaults s2 1 o).1 = [bs.getD (o - off2) 0]
    ∧ (ReadAt noFaults s2 1 o).2.2 = none := by
  obtain ⟨hS, hcf, hoffle, hname, hext, hro, haro, hcl, hfe, hacf⟩ := (goodTail_iff s).mp hg
  simp only [Append, hcl, hro, Bool.false_eq_true, if_false] at happ
  by_cases hbs : bs.length = 0
  · rw [if_pos hbs] at happ
    simp at happ
  · rw [if_neg hbs] at happ
    obtain ⟨⟨hn1, hn2⟩, hm2, hm3, _, hm5, _, hm7, _, hm9, _⟩ :=
      appendLoop_master noFaults bs (bs.length + 1) 0 0 s off2 n2 s2 none happ hg (by omega)
    have hlen2 : n2 = bs.length := hm2 rfl
    have hoff2 : off2 = Offset s := hm3 (by omega) rfl
    obtain ⟨hgt2, _⟩ := hm7 (by simp)
    have hcn2 : cacheNamesOK s2 = true := hm9 hcn
    have hk := hm5 (o - off2) (by omega) (by omega)
    simp only [Nat.sub_zero] at hk
    rw [← hoff2] at hk
    have hklt : o - off2 < bs.length := by omega
    have hb : logicalByte s2 o = some (bs.getD (o - off2) 0) := by
      rw [show off2 + (o - off2) = o from by omega] at hk
      rw [hk, List.getD_eq_getElem bs 0 hklt]
      exact List.getElem?_eq_getElem hklt
    have hcl2 : s2.closed = false := ((goodTail_iff s2).mp hgt2).2.2.2.2.2.2.2.1
    have hr := ReadAt_single s2 o (bs.getD (o - off2) 0) hcl2 hcn2 hb
    exact ⟨hlen2, hr.1, hr.2⟩

/-- Witness for C1: six bytes appended to a fresh store with segment
size 4 span two segments; the byte at logical offset 5 reads back. -/
theorem C1_witness :
    c1res.2.1 = 6
    ∧ (ReadAt noFaults c1res.2.2.1 1 5).1 = [[10, 20, 30, 40, 50, 60].getD (5 - c1res.1) 0]
    ∧ (ReadAt noFaults c1res.2.2.1 1 5).2.2 = none := by
  have h := C1_append_readAt_roundtrip storeA [10, 20, 30, 40, 50, 60] 5
    c1res.1 c1res.2.1 c1res.2.2.1 (by decide) (by decide) (by rfl) (by decide) (by decide)
  exact ⟨h.1, h.2.1, h.2.2⟩

/-! ### Claim C2 -/

/-- C2: Whenever `Append bs` on an open writable (uncompressed,
well-formed) store with non-empty `bs` returns without error, it returns
`(start, n)` with `n = bs.length` and `start` equal to the prior
`Offset`, writes `bs` end-to-end — byte `k` lands at logical offset
`start + k`, rolling over into new segments as the tail fills — and
advances the write position by `bs.length`. -/
theorem C2_append_success_shape (s : MultiFileAppendable) (bs : List Byte)
    (off2 n2 : Nat) (s2 : MultiFileAppendable)
    (hg : goodTail s = true) (hbs : bs ≠ [])
    (happ : Append noFaults s bs = (off2, n2, s2, none)) :
    n2 = bs.length ∧ off2 = Offset s ∧ Offset s2 = Offset s + bs.length
    ∧ ∀ k, k < bs.length → logicalByte s2 (off2 + k) = bs[k]? := by
  obtain ⟨hS, hcf, hoffle, hname, hext, hro, haro, hcl, hfe, hacf⟩ := (goodTail_iff s).mp hg
  simp only [Append, hcl, hro, Bool.false_eq_true, if_false] at happ
  have hbs' : bs.length ≠ 0 := by
    intro hc
    exact hbs (List.length_eq_zero.mp hc)
  rw [if_neg hbs'] at happ
  obtain ⟨⟨hn1, hn2⟩, hm2, hm3, _, hm5, _, hm7, _, _, _⟩ :=
    appendLoop_master noFaults bs (bs.length + 1) 0 0 s off2 n2 s2 none happ hg (by omega)
  have hlen2 : n2 = bs.length := hm2 rfl
  have hoff2 : off2 = Offset s := hm3 (by omega) rfl
  obtain ⟨_, hadv⟩ := hm7 (by simp)
  refine ⟨hlen2, hoff2, by omega, ?_⟩
  intro k hk
  have := hm5 k (by omega) (by omega)
  simp only [Nat.sub_zero] at this
  rw [hoff2]
  exact this

/-- Witness for C2: three bytes appended to a fresh store with segment
size 8 start at the prior write offset. -/
theorem C2_witness :
    c2res.2.1 = 3 ∧ c2res.1 = Offset storeB
    ∧ Offset c2res.2.2.1 = Offset storeB + 3
    ∧ ∀ k, k < 3 → logicalByte c2res.2.2.1 (c2res.1 + k) = [1, 2, 3][k]? := by
  have h := C2_append_success_shape storeB [1, 2, 3] c2res.1 c2res.2.1 c2res.2.2.1
    (by decide) (by decide) (by rfl)
  exact ⟨h.1, h.2.1, h.2.2.1, h.2.2.2⟩

/-! ### Claim C9 -/

/-- C9 counterexample: inject an I/O fault into the creation of the next
segment file during rollover (clock 2 of the `failAt2` trace).  `Append`
returns the partial count with the error, but the store is left
inconsistent: `currAppID` was already incremented while `currApp` still
handles the previous segment, so the tail handle no longer belongs to
segment `tail_id` and `Size` reports 8 although only segment 0 (4 bytes)
exists. -/
theorem C9_counterexample :
    c9res.2.2.2 = some .ioOpen
    ∧ c9res.2.2.1.currApp.name ≠ appendableName c9res.2.2.1.currAppID c9res.2.2.1.fileExt
    ∧ c9res.2.2.1.currAppID = 1
    ∧ (Size c9res.2.2.1).1 = 8
    ∧ handleSize c9res.2.2.1.world c9res.2.2.1.currApp = 4 := by decide

/-- C9 amended: when `Append` on a well-formed store returns an error
other than a failed segment-file creation (`ioOpen`), the partial
`(start, n)` is returned with the error and the state stays consistent:
the tail handle is the handle for segment `tail_id`, the write position
advanced by exactly the bytes written, and those bytes are readable at
their logical positions.  A failed segment creation instead leaves
`currAppID` incremented with the old tail handle (see the
counterexample). -/
theorem C9_amended_partial_append (ff : Nat → Bool) (s : MultiFileAppendable)
    (bs : List Byte) (off2 n2 : Nat) (s2 : MultiFileAppendable) (e : MErr)
    (hg : goodTail s = true)
    (happ : Append ff s bs = (off2, n2, s2, some e)) (hne : e ≠ .ioOpen) :
    s2.currApp.name = appendableName s2.currAppID s2.fileExt
    ∧ Offset s2 = Offset s + n2
    ∧ (0 < n2 → off2 = Offset s)
    ∧ (∀ k, k < n2 → logicalByte s2 (off2 + k) = bs[k]?) := by
  obtain ⟨hS, hcf, hoffle, hname, hext, hro, haro, hcl, hfe, hacf⟩ := (goodTail_iff s).mp hg
  simp only [Append, hcl, hro, Bool.false_eq_true, if_false] at happ
  by_cases hbs : bs.length = 0
  · rw [if_pos hbs] at happ
    simp only [Prod.mk.injEq] at happ
    obtain ⟨h1, h2, h3, _⟩ := happ
    subst h1; subst h2; subst h3
    refine ⟨hname, by omega, ?_, ?_⟩
    · intro hc; exact absurd hc (by omega)
    · intro k hk; exact absurd hk (by omega)
  · rw [if_neg hbs] at happ
    obtain ⟨⟨hn1, hn2⟩, _, hm3, _, hm5, _, hm7, _, _, _⟩ :=
      appendLoop_master ff bs (bs.length + 1) 0 0 s off2 n2 s2 (some e) happ hg (by omega)
    have hnei : (some e : Option MErr) ≠ some .ioOpen := by
      intro hc
      injection hc with hc
      exact hne hc
    obtain ⟨hgt2, hadv⟩ := hm7 hnei
    have hname2 : s2.currApp.name = appendableName s2.currAppID s2.fileExt :=
      ((goodTail_iff s2).mp hgt2).2.2.2.1
    refine ⟨hname2, by omega, fun hpos => hm3 hpos rfl, ?_⟩
    intro k hk
    have := hm5 k (by omega) (by omega)
    simp only [Nat.sub_zero] at this
    rw [hm3 (by omega) rfl]
    exact this

/-- Witness for C9 (amended): a six-byte append whose second chunk's
write faults (clock 3) returns the partial count 4; the state stays
consistent and the four written bytes read back. -/
theorem C9_witness :
    c9wres.2.2.1.currApp.name
      = appendableName c9wres.2.2.1.currAppID c9wres.2.2.1.fileExt
    ∧ Offset c9wres.2.2.1 = Offset storeA + c9wres.2.1
    ∧ (0 < c9wres.2.1 → c9wres.1 = Offset storeA)
    ∧ (∀ k, k < c9wres.2.1 →
        logicalByte c9wres.2.2.1 (c9wres.1 + k) = [5, 6, 7, 8, 9, 10][k]?) :=
  C9_amended_partial_append failAt3 storeA [5, 6, 7, 8, 9, 10]
    c9wres.1 c9wres.2.1 c9wres.2.2.1 .ioWrite (by decide) (by rfl) (by decide)

/-! ### Claim C3 -/

/-- C3 counterexample: after the legal sequence Open (segment size 4,
cache capacity 1); `SetOffset 5`, the cache holds an entry keyed by the
current tail id itself: `SetOffset` caches the handle it just made
current instead of (or in addition to) evicting it from the cache, so
"the cache never holds the segment the tail handle is for" fails. -/
theorem C3_counterexample :
    c3state.appendables.map Prod.fst = [1] ∧ c3state.currAppID = 1 := by decide

/-- C3 amended: along every fault-free run of `Append`/`Flush`/`Sync`
from a freshly opened writable store, no cache key equals the current
tail id (rollover only caches ids strictly below the new tail id).
`SetOffset`, however, caches the very handle it promotes to tail, see
the counterexample. -/
theorem C3_amended_tail_not_cached (opts : Options) (s0 : MultiFileAppendable)
    (ops : List MOp)
    (hv : validOptions opts = true) (hro : opts.readOnly = false)
    (hopen : Open noFaults false World.empty opts = .ok s0) :
    ∀ kv ∈ (runOps s0 ops).appendables, kv.1 ≠ (runOps s0 ops).currAppID := by
  obtain ⟨hemp, hcap, hid, hsro, hscl, hfsz, hoc⟩ := Open_fresh_inv opts s0 hv hro hopen
  have hc0 : countOK s0 = true := by
    unfold countOK
    rw [hemp, hoc]
    simp
  have hk0 : cacheKeysLt s0 = true := by
    unfold cacheKeysLt
    rw [hemp]
    rfl
  obtain ⟨_, hkf, _, _, _⟩ := runOps_inv ops s0 hc0 hk0 hscl hsro
  unfold cacheKeysLt at hkf
  rw [List.all_eq_true] at hkf
  intro kv hkv
  have := hkf kv hkv
  simp only [decide_eq_true_eq] at this
  omega

/-- Witness for C3 (amended): after a five-byte append (one rollover)
from a fresh store with segment size 4, the (only) cache entry's key
differs from the tail id. -/
theorem C3_witness : (c3kv.1 == c3run.currAppID) = false := by
  have h := C3_amended_tail_not_cached optsA storeA [MOp.append [1, 1, 1, 1, 1]]
    (by decide) (by decide) (by rfl) c3kv
    (by decide : c3kv ∈ (runOps storeA [MOp.append [1, 1, 1, 1, 1]]).appendables)
  exact beq_eq_false_iff_ne.mpr h

/-! ### Claim C5 -/

/-- C5 counterexample: Open (capacity 1); `Append` of five bytes (one
rollover); `SetOffset 2`.  `SetOffset` replaced the cached entry for key
0 with a fresh handle for the same segment without closing the handle it
displaced, so three descriptors are open although the claimed bound is
`max_open_files + 1 = 2`. -/
theorem C5_counterexample :
    c5state.world.openCount = 3 ∧ c5state.maxCap = 1
    ∧ ¬ c5state.world.openCount ≤ c5state.maxCap + 1 := by decide

/-- C5 amended: along every fault-free run of `Append`/`Flush`/`Sync`
from a freshly opened writable store, at most `max_open_files` cached
handles plus the tail are open, so the descriptor count is bounded by
`max_open_files + 1`.  `SetOffset` can leak a displaced handle and
exceed the bound, see the counterexample. -/
theorem C5_amended_fd_bound (opts : Options) (s0 : MultiFileAppendable)
    (ops : List MOp)
    (hv : validOptions opts = true) (hro : opts.readOnly = false)
    (hopen : Open noFaults false World.empty opts = .ok s0) :
    (runOps s0 ops).world.openCount ≤ opts.maxOpenedFiles + 1 := by
  obtain ⟨hemp, hcap, hid, hsro, hscl, hfsz, hoc⟩ := Open_fresh_inv opts s0 hv hro hopen
  have hc0 : countOK s0 = true := by
    unfold countOK
    rw [hemp, hoc]
    simp
  have hk0 : cacheKeysLt s0 = true := by
    unfold cacheKeysLt
    rw [hemp]
    rfl
  obtain ⟨hcf, _, _, _, hmc⟩ := runOps_inv ops s0 hc0 hk0 hscl hsro
  unfold countOK at hcf
  simp only [Bool.and_eq_true, beq_iff_eq, decide_eq_true_eq] at hcf
  rw [hmc, hcap] at hcf
  omega

/-- Witness for C5 (amended): a six-byte append (one rollover) from a
fresh store with capacity 1 keeps at most two descriptors open. -/
theorem C5_witness :
    (runOps storeA [MOp.append [2, 2, 2, 2, 2, 2]]).world.openCount
      ≤ optsA.maxOpenedFiles + 1 :=
  C5_amended_fd_bound optsA storeA [MOp.append [2, 2, 2, 2, 2, 2]]
    (by decide) (by decide) (by rfl)

/-! ### Claim C4 -/

/-- C4 counterexample: at a reachable writable store whose tail is
segment 0, resolving offset 0 — whose segment id *is* the tail id — does
not use the tail handle: the source's `appendableFor` has no tail
special-case, so it misses the cache, opens a second handle to the tail
segment's file with the store's (writable) mode rather than read-only,
and caches it; the claimed resolution rule would have returned the tail
handle without opening anything. -/
theorem C4_counterexample :
    appendableID 0 c4state.fileSize = c4state.currAppID
    ∧ appendableFor noFaults c4state 0 ≠ appendableForClaim noFaults c4state 0
    ∧ (appendableForClaim noFaults c4state 0).2.1.world.openCount
        = c4state.world.openCount
    ∧ (appendableFor noFaults c4state 0).2.1.world.openCount
        = c4state.world.openCount + 1
    ∧ ((appendableFor noFaults c4state 0).1.map Handle.ro) = some false
    ∧ c4state.readOnly = false := by decide

/-- C4 amended: `appendableFor` resolves every offset through the cache
alone — the tail gets no special treatment.  A hit returns the cached
handle and opens nothing; a miss opens the segment file in the store's
own mode (not read-only), inserts the handle into the cache via the
LRU put (closing an evicted handle, which releases a descriptor), and
returns it. -/
theorem C4_amended_cache_only_resolution (s : MultiFileAppendable) (off : Nat)
    (app : Handle) (s2 : MultiFileAppendable)
    (hcl : s.closed = false)
    (hres : appendableFor noFaults s off = (some app, s2, none)) :
    (cacheLookup s.appendables (appendableID off s.fileSize) = some app
      ∧ s2.world.openCount = s.world.openCount)
    ∨ (cacheLookup s.appendables (appendableID off s.fileSize) = none
      ∧ app.ro = s.readOnly
      ∧ app.name = appendableName (appendableID off s.fileSize) s.fileExt
      ∧ s2.appendables
          = (cachePut s.maxCap s.appendables (appendableID off s.fileSize) app).1
      ∧ (s.appendables.length < s.maxCap →
          s2.world.openCount = s.world.openCount + 1)) := by
  cases hget : cacheGet s.appendables (appendableID off s.fileSize) with
  | some pr =>
      obtain ⟨hd, c2⟩ := pr
      have hres2 : ((some hd : Option Handle), { s with appendables := c2 },
          (none : Option MErr)) = (some app, s2, none) := by
        rw [← hres]
        simp only [appendableFor, hcl, Bool.false_eq_true, if_false, hget]
      simp only [Prod.mk.injEq, Option.some.injEq] at hres2
      obtain ⟨h1, h2, _⟩ := hres2
      left
      constructor
      · unfold cacheGet at hget
        cases hl : cacheLookup s.appendables (appendableID off s.fileSize) with
        | none => rw [hl] at hget; simp at hget
        | some h0 =>
            rw [hl] at hget
            simp only [Option.some.injEq, Prod.mk.injEq] at hget
            rw [hget.1, h1]
      · rw [← h2]
  | none =>
      rcases hSO : singleappOpen noFaults s.world
          (appendableName (appendableID off s.fileSize) s.fileExt)
          { ro := s.readOnly, cf := s.currApp.cf, cl := s.currApp.cl,
            meta := s.currApp.meta } with ⟨oh, w1, eo⟩
      have hlookup : cacheLookup s.appendables (appendableID off s.fileSize) = none := by
        unfold cacheGet at hget
        cases hl : cacheLookup s.appendables (appendableID off s.fileSize) with
        | none => rfl
        | some h0 => rw [hl] at hget; simp at hget
      cases oh with
      | none =>
          have hcon : ((none : Option Handle), { s with world := w1 }, eo)
              = (some app, s2, none) := by
            rw [← hres]
            simp only [appendableFor, hcl, Bool.false_eq_true, if_false, hget, openAppendable]
            rw [hSO]
          simp at hcon
      | some hdl =>
          obtain ⟨heo, hdname, hdro, hoc1, _, _, _, _⟩ :=
            singleappOpen_some _ _ _ _ _ _ _ hSO
          rcases hPC : putAndCloseEv noFaults
              { appendables := s.appendables, maxCap := s.maxCap,
                currAppID := s.currAppID, currApp := s.currApp,
                readOnly := s.readOnly, synced := s.synced, fileSize := s.fileSize,
                fileExt := s.fileExt, closed := false, world := w1 }
              (appendableID off s.fileSize) hdl with ⟨s3, e2⟩
          obtain ⟨_, _, _, _, _, _, _, _, hpcache, hpnf⟩ :=
            putAndCloseEv_spec _ _ _ _ _ _ hPC
          have he2 : e2 = none := hpnf rfl
          subst he2
          have hres2 : ((some hdl : Option Handle), s3, (none : Option MErr))
              = (some app, s2, none) := by
            rw [← hres]
            simp only [appendableFor, hcl, Bool.false_eq_true, if_false, hget, openAppendable]
            rw [hSO]
            simp only [hPC]
          simp only [Prod.mk.injEq, Option.some.injEq] at hres2
          obtain ⟨h1, h2, _⟩ := hres2
          subst h1
          right
          refine ⟨hlookup, hdro, hdname, ?_, ?_⟩
          · rw [← h2]
            exact hpcache
          · intro hlen
            obtain ⟨_, hcount⟩ := putAndCloseEv_count
              { appendables := s.appendables, maxCap := s.maxCap,
                currAppID := s.currAppID, currApp := s.currApp,
                readOnly := s.readOnly, synced := s.synced, fileSize := s.fileSize,
                fileExt := s.fileExt, closed := false, world := w1 }
              (appendableID off s.fileSize) hdl s3 none hlookup hPC
            rw [← h2]
            cases hcount with
            | inl hc =>
                rw [hc.2.2]
                exact hoc1
            | inr hc => exact absurd hlen hc.1

/-- Witness for C4 (amended): resolving offset 0 at `c4state` (empty
cache, tail = segment 0) takes the miss branch: it opens a handle in the
store's writable mode and caches it. -/
theorem C4_witness :
    (cacheLookup c4state.appendables (appendableID 0 c4state.fileSize) = some c4app
      ∧ ((appendableFor noFaults c4state 0).2.1).world.openCount
          = c4state.world.openCount)
    ∨ (cacheLookup c4state.appendables (appendableID 0 c4state.fileSize) = none
      ∧ c4app.ro = c4state.readOnly
      ∧ c4app.name = appendableName (appendableID 0 c4state.fileSize) c4state.fileExt
      ∧ ((appendableFor noFaults c4state 0).2.1).appendables
          = (cachePut c4state.maxCap c4state.appendables
              (appendableID 0 c4state.fileSize) c4app).1
      ∧ (c4state.appendables.length < c4state.maxCap →
          ((appendableFor noFaults c4state 0).2.1).world.openCount
            = c4state.world.openCount + 1)) :=
  C4_amended_cache_only_resolution c4state 0 c4app
    (appendableFor noFaults c4state 0).2.1 (by decide) (by rfl)

/-! ### Claim C6 -/

/-- C6 counterexample: after `Close`, the accessors `Offset`, `Metadata`,
`CompressionFormat` and `CompressionLevel` do not fail with the
already-closed error — in the source they have no error return at all and
answer from the closed tail handle. -/
theorem C6_counterexample :
    c6state.closed = true
    ∧ Offset c6state = 0
    ∧ Metadata c6state = [9, 9]
    ∧ CompressionFormat c6state = 0
    ∧ CompressionLevel c6state = 0 := by decide

/-- C6 amended: on a closed store, exactly the fallible operations —
`Append`, `ReadAt` (with a non-empty buffer), `Size`, `SetOffset`,
`Flush`, `Sync`, `Copy` and a second `Close` — fail with the
already-closed error; the four accessors of the counterexample return
plain values instead. -/
theorem C6_amended_closed_state_errors (s : MultiFileAppendable)
    (hcl : s.closed = true) :
    (∀ ff bs, (Append ff s bs).2.2.2 = some .alreadyClosed)
    ∧ (∀ ff len off2, 0 < len → (ReadAt ff s len off2).2.2 = some .alreadyClosed)
    ∧ (Size s).2 = some .alreadyClosed
    ∧ (∀ ff off2, (SetOffset ff s off2).2 = some .alreadyClosed)
    ∧ (Flush s).2 = some .alreadyClosed
    ∧ (Sync s).2 = some .alreadyClosed
    ∧ (Copy s).2 = some .alreadyClosed
    ∧ (∀ ff, (Close ff s).2 = some .alreadyClosed) := by
  refine ⟨?_, ?_, ?_, ?_, ?_, ?_, ?_, ?_⟩
  · intro ff bs
    simp [Append, hcl]
  · intro ff len off2 hlen
    unfold ReadAt
    rw [if_neg (by omega)]
    simp [readLoop, appendableFor, hcl, hlen]
  · simp [Size, hcl]
  · intro ff off2
    simp [SetOffset, hcl]
  · simp [Flush, hcl]
  · simp [Sync, hcl]
  · simp [Copy, hcl]
  · intro ff
    simp [Close, hcl]

/-- Witness for C6 (amended): every fallible operation on the closed
store `c6state` reports the already-closed error. -/
theorem C6_witness :
    (∀ ff bs, (Append ff c6state bs).2.2.2 = some .alreadyClosed)
    ∧ (∀ ff len off2, 0 < len → (ReadAt ff c6state len off2).2.2 = some .alreadyClosed)
    ∧ (Size c6state).2 = some .alreadyClosed
    ∧ (∀ ff off2, (SetOffset ff c6state off2).2 = some .alreadyClosed)
    ∧ (Flush c6state).2 = some .alreadyClosed
    ∧ (Sync c6state).2 = some .alreadyClosed
    ∧ (Copy c6state).2 = some .alreadyClosed
    ∧ (∀ ff, (Close ff c6state).2 = some .alreadyClosed) :=
  C6_amended_closed_state_errors c6state (by decide)

/-! ### Claim C7 -/

/-- C7 counterexample: a directory holding the unparsable entry
`!x.aof` alongside `00000000.aof` opens fine — `Open` parses only the
lexicographically last directory entry, not every entry as claimed. -/
theorem C7_counterexample :
    parseStem "!x.aof" = none
    ∧ wC7.fs.map Prod.fst = ["!x.aof", "00000000.aof"]
    ∧ (Open noFaults true wC7 optsB).toOption.isSome = true := by decide

/-- C7 amended: `Open` on an existing directory fails with the parse
error exactly when the *last* entry of the sorted listing has an
unparsable stem; earlier entries are never parsed (see the
counterexample). -/
theorem C7_amended_last_entry_must_parse (w : World) (opts : Options) (name : String)
    (hv : validOptions opts = true)
    (hl : (sortNames (w.fs.map Prod.fst)).getLast? = some name)
    (hp : parseStem name = none) :
    Open noFaults true w opts = .error .parseError := by
  simp only [Open, hv, Bool.not_true, Bool.false_and, Bool.false_eq_true,
    if_false, if_true, hl, hp]

/-- Witness for C7 (amended): a directory whose only (hence last) entry
is the unparsable `zz.aof` makes `Open` fail with the parse error. -/
theorem C7_witness : Open noFaults true wC7b optsB = .error .parseError :=
  C7_amended_last_entry_must_parse wC7b optsB "zz.aof"
    (by decide) (by decide) (by decide)

/-! ### Claim C8 -/

/-- C8: reopening a non-empty directory derives the state from the
stored data, not the options: `currAppID` is parsed from the last
entry's stem, the tail handle is opened on that file positioned at its
end, and the segment size is the `FILE_SIZE` header stored in that file
— even when it differs from `opts.fileSize`. -/
theorem C8_reopen_reads_stored_header (w : World) (opts : Options) (name : String)
    (id v : Nat) (f : SegFile)
    (hv : validOptions opts = true)
    (hl : (sortNames (w.fs.map Prod.fst)).getLast? = some name)
    (hp : parseStem name = some id)
    (hf : fsFind w.fs name = some f)
    (hm : metaGetInt f.meta metaFileSize = some v) :
    ∃ st, Open noFaults true w opts = .ok st
      ∧ st.fileSize = v ∧ st.currAppID = id ∧ st.currApp.off = f.content.length := by
  have hopen := singleappOpen_noFaults_exists w name
    { ro := opts.readOnly, cf := opts.compressionFormat, cl := opts.compressionLevel,
      meta := [(metaFileSize, .int opts.fileSize), (metaWrappedMeta, .bytes opts.metadata)] }
    f hf
  have hO : Open noFaults true w opts = .ok
      { appendables := [], maxCap := opts.maxOpenedFiles, currAppID := id,
        currApp := { name := name, off := f.content.length, ro := opts.readOnly,
                     meta := f.meta, cf := f.cf, cl := f.cl },
        readOnly := opts.readOnly, synced := opts.synced,
        fileSize := (metaGetInt f.meta metaFileSize).getD 0, fileExt := opts.fileExt,
        closed := false,
        world := { w with clock := w.clock + 1, openCount := w.openCount + 1 } } := by
    simp only [Open, hv, Bool.not_true, Bool.false_and, Bool.false_eq_true,
      if_false, if_true, hl, hp]
    rw [hopen]
  refine ⟨_, hO, ?_, rfl, rfl⟩
  show (metaGetInt f.meta metaFileSize).getD 0 = v
  rw [hm]
  rfl

/-- Witness for C8: reopening the directory of `wC8` (one segment file
named `00000003.aof` with stored segment size 4 and two bytes of
content) under options asking for segment size 8 yields a store with
segment size 4, tail id 3, and the tail positioned at the file's end. -/
theorem C8_witness :
    (∃ st, Open noFaults true wC8 optsB = .ok st
      ∧ st.fileSize = 4 ∧ st.currAppID = 3 ∧ st.currApp.off = 2)
    ∧ optsB.fileSize = 8 :=
  ⟨C8_reopen_reads_stored_header wC8 optsB "00000003.aof" 3 4
    { meta := [(metaFileSize, MetaVal.int 4), (metaWrappedMeta, MetaVal.bytes [5])],
      content := [1, 2], cf := 0, cl := 0 }
    (by decide) (by decide) (by decide) (by decide) (by decide), by decide⟩

/-! ### Claim C10 -/

/-- C10 counterexample: when the reopened tail's header has no decodable
`FILE_SIZE` entry, `Open` does not fail — the source discards the
`GetInt` error, so the store comes up with segment size 0. -/
theorem C10_counterexample :
    (Open noFaults true wC10 optsB).toOption.map (fun st => st.fileSize) = some 0
    ∧ 0 < optsB.fileSize := by decide

/-- C10 amended: opening a fresh (empty) directory writes the caller's
`FILE_SIZE` into the new segment's header and comes up with the positive
segment size `opts.fileSize`; on reopen, however, a header without a
decodable `FILE_SIZE` silently yields segment size 0 (see the
counterexample) rather than an error. -/
theorem C10_amended_fresh_fileSize (opts : Options)
    (hv : validOptions opts = true) (hro : opts.readOnly = false) :
    ∃ st, Open noFaults false World.empty opts = .ok st
      ∧ st.fileSize = opts.fileSize ∧ 0 < st.fileSize := by
  cases hO : Open noFaults false World.empty opts with
  | error e =>
      exfalso
      simp only [Open, hv, hro, Bool.not_true, Bool.false_eq_true, if_false, Bool.and_false,
        Bool.not_false, singleappOpen, tick, noFaults, World.empty, fsFind, appendableID,
        metaGetInt, metaFileSize, metaWrappedMeta, List.getLast?, if_true, Nat.zero_div] at hO
      exact Except.noConfusion hO
  | ok st =>
      have hi := Open_fresh_inv opts st hv hro hO
      have hpos : 0 < opts.fileSize := by
        unfold validOptions at hv
        simp only [Bool.and_eq_true, decide_eq_true_eq] at hv
        exact hv.1
      refine ⟨st, rfl, hi.2.2.2.2.2.1, ?_⟩
      rw [hi.2.2.2.2.2.1]
      exact hpos

/-- Witness for C10 (amended): a fresh store under `optsB` comes up with
the configured segment size 8. -/
theorem C10_witness :
    ∃ st, Open noFaults false World.empty optsB = .ok st
      ∧ st.fileSize = optsB.fileSize ∧ 0 < st.fileSize :=
  C10_amended_fresh_fileSize optsB (by decide) (by decide)

end MultiApp
